import Mathlib

/- Verification of the dispatcher-client connection library:
   a shallow embedding of the python sources (freenas/dispatcher/client.py,
   fd.py, jsonenc.py, server.py) with theorems about the pending-call
   table, the streaming protocol, file-descriptor passing, the JSON codec
   extensions, timeouts, event filtering and the login helpers. -/

namespace Dispatcher

/-- A file descriptor handle: raw descriptor number plus the ownership flag
saying whether the sender closes it after transmission
(fd.py, class FileDescriptor; the constructor defaults close to True). -/
structure FDesc where
  fd : Int
  closeFlag : Bool
deriving Repr, DecidableEq

/-- JSON-like value trees as handled by the channel serializer: plain JSON
values plus FileDescriptor leaves. Dictionaries are association lists in
insertion order, matching the traversal order of fd.py. -/
inductive PVal where
  | null : PVal
  | bool (b : Bool) : PVal
  | num (n : Int) : PVal
  | str (s : String) : PVal
  | fdesc (d : FDesc) : PVal
  | arr (elems : List PVal) : PVal
  | obj (fields : List (String × PVal)) : PVal

/-- The in-band placeholder written by collect_fds for the descriptor with
running index idx: a one-entry dictionary keyed by the dollar-fd tag. -/
def fdPlaceholder (idx : Nat) : PVal :=
  PVal.obj [("$fd", PVal.num (Int.ofNat idx))]

mutual
/-- Embedding of UnixChannelSerializer.collect_fds (fd.py): rewrite the tree,
replacing each FileDescriptor that is a direct child of a dictionary or a
sequence with a placeholder carrying the running index, and return the
descriptors in yield order. The running index advances only on direct
FileDescriptor children: descriptors yielded from a nested container do not
advance the index of the enclosing traversal, exactly as in the source
generator, which recurses with the current index and never reads it back. -/
def collectFds : PVal → Nat → PVal × List FDesc
  | PVal.obj kvs, start =>
      let r := collectFields kvs start
      (PVal.obj r.1, r.2)
  | PVal.arr xs, start =>
      let r := collectElems xs start
      (PVal.arr r.1, r.2)
  | v, _ => (v, [])

/-- Dictionary branch of collect_fds: items in insertion order. -/
def collectFields : List (String × PVal) → Nat → List (String × PVal) × List FDesc
  | [], _ => ([], [])
  | (k, PVal.fdesc d) :: rest, idx =>
      let r := collectFields rest (idx + 1)
      ((k, fdPlaceholder idx) :: r.1, d :: r.2)
  | (k, v) :: rest, idx =>
      let rv := collectFds v idx
      let r := collectFields rest idx
      ((k, rv.1) :: r.1, rv.2 ++ r.2)

/-- Sequence branch of collect_fds. -/
def collectElems : List PVal → Nat → List PVal × List FDesc
  | [], _ => ([], [])
  | PVal.fdesc d :: rest, idx =>
      let r := collectElems rest (idx + 1)
      (fdPlaceholder idx :: r.1, d :: r.2)
  | v :: rest, idx =>
      let rv := collectFds v idx
      let r := collectElems rest idx
      (rv.1 :: r.1, rv.2 ++ r.2)
end

/-- Embedding of Connection.pack (client.py): collect the descriptors from
the args tree (starting at index 0) and build the message object with the
namespace, name, rewritten args and id fields, in that insertion order. -/
def packMsg (ns nm : String) (args : PVal) (id : String) : PVal × List FDesc :=
  let r := collectFds args 0
  (PVal.obj [("namespace", PVal.str ns), ("name", PVal.str nm),
             ("args", r.1), ("id", PVal.str id)], r.2)

/-- Python list indexing as used by the receive-side substitution:
nonnegative indices read from the front, negative indices wrap from the
back, and anything else raises IndexError (modelled as none). -/
def pyIndex (fds : List Int) (i : Int) : Option Int :=
  let j : Int := if i < 0 then (fds.length : Int) + i else i
  if 0 ≤ j then fds.get? j.toNat else none

/-- Receive-side replacement of one placeholder payload x, from the guarded
expression in replace_fds: when x compares below the ancillary length the
element is fetched (with Python index semantics, possibly raising) and
wrapped in a FileDescriptor, otherwise the node becomes None. Payloads
that are not integers make the comparison raise (modelled as none);
booleans compare as 0 and 1 as in Python. -/
def substFd (fds : List Int) : PVal → Option PVal
  | PVal.num i =>
      if i < (fds.length : Int) then
        (pyIndex fds i).map (fun d => PVal.fdesc ⟨d, true⟩)
      else some PVal.null
  | PVal.bool b =>
      if (if b then (1 : Int) else 0) < (fds.length : Int) then
        (pyIndex fds (if b then 1 else 0)).map (fun d => PVal.fdesc ⟨d, true⟩)
      else some PVal.null
  | _ => none

mutual
/-- Embedding of UnixChannelSerializer.replace_fds (fd.py): walk the tree
and replace every child that is a one-entry dictionary keyed by the
dollar-fd tag according to substFd. The root itself is never replaced;
failure of any substitution fails the whole walk, as the Python exception
would fail the whole message. -/
def replaceFds : PVal → List Int → Option PVal
  | PVal.obj kvs, fds =>
      match replaceFields kvs fds with
      | some kvs' => some (PVal.obj kvs')
      | none => none
  | PVal.arr xs, fds =>
      match replaceElems xs fds with
      | some xs' => some (PVal.arr xs')
      | none => none
  | v, _ => some v

/-- Dictionary branch of replace_fds. -/
def replaceFields : List (String × PVal) → List Int → Option (List (String × PVal))
  | [], _ => some []
  | (k, PVal.obj [(key, x)]) :: rest, fds =>
      if key = "$fd" then
        match substFd fds x with
        | none => none
        | some v' =>
            match replaceFields rest fds with
            | some rest' => some ((k, v') :: rest')
            | none => none
      else
        match replaceFds (PVal.obj [(key, x)]) fds with
        | none => none
        | some v' =>
            match replaceFields rest fds with
            | some rest' => some ((k, v') :: rest')
            | none => none
  | (k, v) :: rest, fds =>
      match replaceFds v fds with
      | none => none
      | some v' =>
          match replaceFields rest fds with
          | some rest' => some ((k, v') :: rest')
          | none => none

/-- Sequence branch of replace_fds. -/
def replaceElems : List PVal → List Int → Option (List PVal)
  | [], _ => some []
  | PVal.obj [(key, x)] :: rest, fds =>
      if key = "$fd" then
        match substFd fds x with
        | none => none
        | some v' =>
            match replaceElems rest fds with
            | some rest' => some (v' :: rest')
            | none => none
      else
        match replaceFds (PVal.obj [(key, x)]) fds with
        | none => none
        | some v' =>
            match replaceElems rest fds with
            | some rest' => some (v' :: rest')
            | none => none
  | v :: rest, fds =>
      match replaceFds v fds with
      | none => none
      | some v' =>
          match replaceElems rest fds with
          | some rest' => some (v' :: rest')
          | none => none
end

/-- The replacement value prescribed by the specification for a placeholder
with integer payload i, extended with Python index wrap-around: in-range
nonnegative indices wrap the addressed ancillary descriptor, indices at or
beyond the length become a null descriptor, and negative indices within
the length address from the back. -/
def specFdValue (fds : List Int) (i : Int) : PVal :=
  if 0 ≤ i then
    if i < (fds.length : Int) then PVal.fdesc ⟨(fds.get? i.toNat).getD 0, true⟩
    else PVal.null
  else PVal.fdesc ⟨(fds.get? ((fds.length : Int) + i).toNat).getD 0, true⟩

mutual
/-- Specification-level total substitution: every non-root node that is a
one-entry dictionary keyed by the dollar-fd tag with integer payload is
replaced by specFdValue; other nodes are traversed. Used to state what
replace_fds computes on well-indexed trees. -/
def specReplace : PVal → List Int → PVal
  | PVal.obj kvs, fds => PVal.obj (specReplaceFields kvs fds)
  | PVal.arr xs, fds => PVal.arr (specReplaceElems xs fds)
  | v, _ => v

/-- Dictionary branch of specReplace. A placeholder whose payload is not an
integer is excluded by well-indexedness; the total function keeps such a
node unchanged. -/
def specReplaceFields : List (String × PVal) → List Int → List (String × PVal)
  | [], _ => []
  | (k, PVal.obj [(key, x)]) :: rest, fds =>
      if key = "$fd" then
        (k, match x with
            | PVal.num i => specFdValue fds i
            | x => PVal.obj [(key, x)]) :: specReplaceFields rest fds
      else
        (k, specReplace (PVal.obj [(key, x)]) fds) :: specReplaceFields rest fds
  | (k, v) :: rest, fds =>
      (k, specReplace v fds) :: specReplaceFields rest fds

/-- Sequence branch of specReplace. -/
def specReplaceElems : List PVal → List Int → List PVal
  | [], _ => []
  | PVal.obj [(key, x)] :: rest, fds =>
      if key = "$fd" then
        (match x with
         | PVal.num i => specFdValue fds i
         | x => PVal.obj [(key, x)]) :: specReplaceElems rest fds
      else
        specReplace (PVal.obj [(key, x)]) fds :: specReplaceElems rest fds
  | v :: rest, fds =>
      specReplace v fds :: specReplaceElems rest fds
end

mutual
/-- Well-indexed trees: every non-root placeholder node carries an integer
payload no smaller than the negated ancillary length (so Python indexing
cannot raise). -/
def wellIndexed : PVal → List Int → Bool
  | PVal.obj kvs, fds => wellIndexedFields kvs fds
  | PVal.arr xs, fds => wellIndexedElems xs fds
  | _, _ => true

/-- Dictionary branch of wellIndexed. -/
def wellIndexedFields : List (String × PVal) → List Int → Bool
  | [], _ => true
  | (_, PVal.obj [(key, x)]) :: rest, fds =>
      if key = "$fd" then
        (match x with
         | PVal.num i => decide (-(fds.length : Int) ≤ i)
         | _ => false) && wellIndexedFields rest fds
      else
        wellIndexed (PVal.obj [(key, x)]) fds && wellIndexedFields rest fds
  | (_, v) :: rest, fds =>
      wellIndexed v fds && wellIndexedFields rest fds

/-- Sequence branch of wellIndexed. -/
def wellIndexedElems : List PVal → List Int → Bool
  | [], _ => true
  | PVal.obj [(key, x)] :: rest, fds =>
      if key = "$fd" then
        (match x with
         | PVal.num i => decide (-(fds.length : Int) ≤ i)
         | _ => false) && wellIndexedElems rest fds
      else
        wellIndexed (PVal.obj [(key, x)]) fds && wellIndexedElems rest fds
  | v :: rest, fds =>
      wellIndexed v fds && wellIndexedElems rest fds
end

/- JSON codec with extensions (jsonenc.py). The textual helpers used by the
codec (str on datetimes plus dateutil parsing, and the base64 module) are
standard-library functions outside this repository; they are modelled
concretely below: datetimes as natural timestamps with a decimal printer
and parser, byte blobs with a genuine base64 codec. -/

/-- Decimal printer modelling the textual form of a timestamp: little-endian
digits from Nat.digits rendered as characters. -/
def decPrint (n : Nat) : List Char :=
  (Nat.digits 10 n).map Nat.digitChar

/-- One decimal digit back from its character. -/
def decDigit (c : Char) : Option Nat :=
  if 48 ≤ c.toNat ∧ c.toNat < 58 then some (c.toNat - 48) else none

/-- Digit-by-digit decoding of a character list, failing on the first
non-digit. -/
def decParseDigits : List Char → Option (List Nat)
  | [] => some []
  | c :: rest =>
      match decDigit c, decParseDigits rest with
      | some d, some ds => some (d :: ds)
      | _, _ => none

/-- Decimal parser inverting decPrint. -/
def decParse (cs : List Char) : Option Nat :=
  (decParseDigits cs).map (Nat.ofDigits 10)

/-- The base64 alphabet in value order. -/
def b64Alphabet : List Char :=
  "ABCDEFGHIJKLMNOPQRSTUVWXYZabcdefghijklmnopqrstuvwxyz0123456789+/".toList

/-- Sextet value to base64 character. -/
def encChar (n : Nat) : Char := b64Alphabet.getD n 'A'

/-- Base64 character back to its sextet value. -/
def decChar (c : Char) : Option Nat := b64Alphabet.findIdx? (· = c)

/-- Base64 encoding of a byte list, processed in groups of three bytes with
trailing padding. -/
def b64EncodeChunks : List Nat → List Char
  | [] => []
  | [a] => [encChar (a / 4), encChar (a % 4 * 16), '=', '=']
  | [a, b] => [encChar (a / 4), encChar (a % 4 * 16 + b / 16), encChar (b % 16 * 4), '=']
  | a :: b :: c :: rest =>
      encChar (a / 4) :: encChar (a % 4 * 16 + b / 16) ::
      encChar (b % 16 * 4 + c / 64) :: encChar (c % 64) :: b64EncodeChunks rest

/-- Base64 decoding, inverting b64EncodeChunks; discarded padding bits are
ignored as Python b64decode does. -/
def b64DecodeChunks : List Char → Option (List Nat)
  | [] => some []
  | c1 :: c2 :: c3 :: c4 :: rest =>
      (decChar c1).bind fun s1 =>
      (decChar c2).bind fun s2 =>
      if c3 = '=' then
        if c4 = '=' ∧ rest = [] then some [s1 * 4 + s2 / 16] else none
      else
        (decChar c3).bind fun s3 =>
        if c4 = '=' then
          if rest = [] then some [s1 * 4 + s2 / 16, s2 % 16 * 16 + s3 / 4] else none
        else
          (decChar c4).bind fun s4 =>
          (b64DecodeChunks rest).map fun tl =>
            (s1 * 4 + s2 / 16) :: (s2 % 16 * 16 + s3 / 4) :: (s3 % 4 * 64 + s4) :: tl
  | _ => none

/-- Plain JSON trees: what travels on the wire after encoding. -/
inductive JVal where
  | null : JVal
  | bool (b : Bool) : JVal
  | num (n : Int) : JVal
  | str (s : String) : JVal
  | arr (xs : List JVal) : JVal
  | obj (kvs : List (String × JVal)) : JVal

/-- Application-level values of the supported kinds, including the codec
extension types: timestamps, binary blobs, UUIDs, regular expressions and
opaque secrets (the Password wrapper may hold any value). -/
inductive Value where
  | null : Value
  | bool (b : Bool) : Value
  | num (n : Int) : Value
  | str (s : String) : Value
  | date (t : Nat) : Value
  | binary (bs : List Nat) : Value
  | uuid (u : Nat) : Value
  | regex (p : String) : Value
  | password (secret : Value) : Value
  | arr (xs : List Value) : Value
  | obj (kvs : List (String × Value)) : Value

/-- Model of str on a uuid.UUID: its textual form, never re-parsed by the
decoder (jsonenc.py has no decode hook for UUIDs). -/
def uuidStr (u : Nat) : String := String.mk (decPrint u)

/-- Model of str on a datetime: the timestamp in decimal. -/
def dateStr (t : Nat) : String := String.mk (decPrint t)

/-- Model of dateutil parsing: inverts dateStr, raising (none) on other
input shapes. -/
def dateParse (s : String) : Option Nat := decParse s.toList

/-- Model of base64.b64encode on a byte blob. -/
def b64encode (bs : List Nat) : String := String.mk (b64EncodeChunks bs)

/-- Model of base64.b64decode. -/
def b64decode (s : String) : Option (List Nat) := b64DecodeChunks s.toList

mutual
/-- Embedding of JSON encoding with JsonEncoder.default (jsonenc.py): UUIDs
become their plain string form, datetimes a one-entry dictionary keyed
dollar-date, byte blobs dollar-binary with base64 payload, patterns
dollar-regex, Password wrappers dollar-password with the secret encoded
recursively; containers are encoded pointwise. -/
def encode : Value → JVal
  | Value.null => JVal.null
  | Value.bool b => JVal.bool b
  | Value.num n => JVal.num n
  | Value.str s => JVal.str s
  | Value.date t => JVal.obj [("$date", JVal.str (dateStr t))]
  | Value.binary bs => JVal.obj [("$binary", JVal.str (b64encode bs))]
  | Value.uuid u => JVal.str (uuidStr u)
  | Value.regex p => JVal.obj [("$regex", JVal.str p)]
  | Value.password v => JVal.obj [("$password", encode v)]
  | Value.arr xs => JVal.arr (encodeList xs)
  | Value.obj kvs => JVal.obj (encodeFields kvs)

/-- Array branch of encode. -/
def encodeList : List Value → List JVal
  | [] => []
  | x :: rest => encode x :: encodeList rest

/-- Object branch of encode. -/
def encodeFields : List (String × Value) → List (String × JVal)
  | [] => []
  | (k, v) :: rest => (k, encode v) :: encodeFields rest
end

/-- Embedding of decode_hook (jsonenc.py): applied to every decoded
dictionary; a one-entry dictionary keyed by one of the extension tags is
turned into the corresponding extension value, with parse and base64
failures raising (none); anything else passes through. The hook sees
values that were already decoded, as object hooks do. -/
def decodeHook (kvs : List (String × Value)) : Option Value :=
  match kvs with
  | [(k, v)] =>
      if k = "$date" then
        match v with
        | Value.str s => (dateParse s).map Value.date
        | _ => none
      else if k = "$binary" then
        match v with
        | Value.str s => (b64decode s).map Value.binary
        | _ => none
      else if k = "$regex" then
        match v with
        | Value.str s => some (Value.regex s)
        | _ => none
      else if k = "$password" then some (Value.password v)
      else some (Value.obj kvs)
  | _ => some (Value.obj kvs)

mutual
/-- Embedding of loads with the object hook (jsonenc.py): plain values map
to themselves, arrays decode pointwise, and every object is passed through
decodeHook after its values are decoded. -/
def decode : JVal → Option Value
  | JVal.null => some Value.null
  | JVal.bool b => some (Value.bool b)
  | JVal.num n => some (Value.num n)
  | JVal.str s => some (Value.str s)
  | JVal.arr xs => (decodeList xs).map Value.arr
  | JVal.obj kvs => (decodeFields kvs).bind decodeHook

/-- Array branch of decode. -/
def decodeList : List JVal → Option (List Value)
  | [] => some []
  | x :: rest =>
      match decode x, decodeList rest with
      | some v, some vs => some (v :: vs)
      | _, _ => none

/-- Object branch of decode. -/
def decodeFields : List (String × JVal) → Option (List (String × Value))
  | [] => some []
  | (k, x) :: rest =>
      match decode x, decodeFields rest with
      | some v, some vs => some ((k, v) :: vs)
      | _, _ => none
end

/-- Keys claimed by the decode hook. -/
def extKey (k : String) : Bool :=
  k = "$date" || k = "$binary" || k = "$regex" || k = "$password"

mutual
/-- Round-trippable values: no UUID anywhere (UUIDs encode to plain
strings with no decode hook), binary payloads are genuine bytes, and no
object literal is a one-entry dictionary keyed by an extension tag. -/
def wfValue : Value → Bool
  | Value.uuid _ => false
  | Value.binary bs => bs.all (fun x => decide (x < 256))
  | Value.password v => wfValue v
  | Value.arr xs => wfList xs
  | Value.obj kvs =>
      (match kvs with
       | [(k, _)] => !extKey k
       | _ => true) && wfFields kvs
  | _ => true

/-- Array branch of wfValue. -/
def wfList : List Value → Bool
  | [] => true
  | x :: rest => wfValue x && wfList rest

/-- Object branch of wfValue. -/
def wfFields : List (String × Value) → Bool
  | [] => true
  | (_, v) :: rest => wfValue v && wfFields rest
end

/- Server-side streaming state (client.py, class PendingIterator). -/

/-- Dictionary read for caches keyed by sequence number. -/
def cacheGet (c : List (Nat × β)) (n : Nat) : Option β :=
  match c with
  | [] => none
  | (k, v) :: rest => if k = n then some v else cacheGet rest n

/-- Server-side state for one streamed response: the not-yet-consumed tail
of the source iterator, the count of values emitted so far, the view flag
and the replay cache (a dictionary from seqno to value, modelled as an
association list whose most recent binding wins). -/
structure PIter (α : Type) where
  iter : List α
  seqno : Nat
  view : Bool
  cache : List (Nat × α)

/-- The successor state of one advance step that produced value v and left
rest as the remaining source: seqno is bumped and the value cached in view
mode (the state mutation performed by PendingIterator.advance). -/
def PIter.stepState (st : PIter α) (v : α) (rest : List α) : PIter α :=
  { st with iter := rest, seqno := st.seqno + 1,
            cache := if st.view then (st.seqno + 1, v) :: st.cache else st.cache }

/-- Embedding of PendingIterator.advance: take the next source value,
bump seqno, cache the value when in view mode; StopIteration carries
seqno plus one and leaves the state unchanged. -/
def PIter.advance (st : PIter α) : Except Nat (α × Nat) × PIter α :=
  match st.iter with
  | [] => (Except.error (st.seqno + 1), st)
  | v :: rest => (Except.ok (v, st.seqno + 1), st.stepState v rest)

/-- The while loop of PendingIterator.request_chunk, with the advance body
inlined: advance while seqno is below the target, returning the value
whose seqno hits the target; when the loop guard fails without a hit the
Python function falls off the end and returns None (modelled ok none). -/
def PIter.chunkLoop (st : PIter α) (target : Nat) : Except Nat (Option α) × PIter α :=
  if h : st.seqno < target then
    match st.iter with
    | [] => (Except.error (st.seqno + 1), st)
    | v :: rest =>
        if st.seqno + 1 = target then (Except.ok (some v), st.stepState v rest)
        else PIter.chunkLoop (st.stepState v rest) target
  else (Except.ok none, st)
termination_by target - st.seqno
decreasing_by simp [PIter.stepState]; omega

/-- Embedding of PendingIterator.request_chunk: a cached seqno is replayed
directly, otherwise the advance loop runs. -/
def PIter.requestChunk (st : PIter α) (target : Nat) : Except Nat (Option α) × PIter α :=
  match cacheGet st.cache target with
  | some v => (Except.ok (some v), st)
  | none => PIter.chunkLoop st target

/- View-mode streaming, client and server combined
   (client.py, StreamingResultView.__getitem__, Connection.call_continue,
   Connection.on_rpc_continue, Connection.on_rpc_fragment,
   Connection.on_rpc_end). -/

/-- Combined state of a view-mode streaming call: the client call record
(fragment cache keyed by seqno, where a cached value of none models a
Python None payload, the last observed seqno and the closed flag) together
with the server-side pending iterator answering continue messages. -/
structure ViewState (α : Type) where
  cliCache : List (Nat × Option α)
  cliSeqno : Nat
  closed : Bool
  srv : PIter α

/-- Embedding of one view-mode lookup of index item, end to end:
StreamingResultView.__getitem__ raises on a closed call; otherwise, when
item is not a key of the client cache it synchronously sends continue with
seqno item plus one, which the peer answers via request_chunk with either
a fragment (cached by on_rpc_fragment under seqno item plus one, which
also becomes the call seqno) or an end message (which just sets the call
seqno to the requested value); finally the client returns the cache entry
at item plus one, raising KeyError when absent. The result is the value
returned (none models a raised exception), whether a continue message was
sent, and the successor state. -/
def viewGetItem (s : ViewState α) (item : Nat) : Option (Option α) × Bool × ViewState α :=
  if s.closed then (none, false, s)
  else if (cacheGet s.cliCache item).isSome then
    (cacheGet s.cliCache (item + 1), false, s)
  else
    let r := s.srv.requestChunk (item + 1)
    match r.1 with
    | Except.ok v =>
        let s' : ViewState α :=
          { s with cliCache := (item + 1, v) :: s.cliCache, cliSeqno := item + 1, srv := r.2 }
        (cacheGet s'.cliCache (item + 1), true, s')
    | Except.error _ =>
        let s' : ViewState α := { s with cliSeqno := item + 1, srv := r.2 }
        (cacheGet s'.cliCache (item + 1), true, s')

/- The pending-call table and the response correlation handlers
   (client.py, Connection.on_rpc_response / on_rpc_fragment / on_rpc_end /
   on_rpc_close / on_rpc_error). -/

/-- The client error taxonomy (client.py, ClientError). -/
inductive ClientError where
  | INVALID_JSON_RESPONSE : ClientError
  | CONNECTION_TIMEOUT : ClientError
  | CONNECTION_CLOSED : ClientError
  | RPC_CALL_TIMEOUT : ClientError
  | RPC_CALL_ERROR : ClientError
  | RPC_CALL_CLOSED : ClientError
  | SPURIOUS_RPC_RESPONSE : ClientError
  | LOGOUT : ClientError
  | OTHER : ClientError
deriving Repr, DecidableEq

/-- What a call result slot can hold: a final data value, or the streaming
handle installed by the fragment and end handlers (StreamingResultView for
view calls, StreamingResultIterator otherwise). -/
inductive CallResult (α : Type) where
  | data (d : α) : CallResult α
  | handle (view : Bool) : CallResult α

/-- One outstanding outbound request (client.py, Connection.PendingCall).
The callback, when present, receives inbound payloads; its boolean return
steers the automatic continue in the fragment handler. -/
structure PCall (α : Type) where
  id : String
  method : String
  args : Option (List α)
  closed : Bool
  view : Bool
  result : Option (CallResult α)
  error : Option α
  ready : Bool
  callback : Option (α → Bool)
  queue : List (Option α)
  seqno : Nat
  cache : List (Nat × α)

/-- A fresh PendingCall as built by the constructor. -/
def PCall.fresh (id method : String) (args : Option (List α)) : PCall α :=
  ⟨id, method, args, false, false, none, none, false, none, [], 0, []⟩

/-- The connection state the correlation handlers touch: the pending-call
table (dictionary in insertion order) and whether an error callback is
installed. -/
structure Conn (α : Type) where
  pendingCalls : List (String × PCall α)
  hasErrorCallback : Bool

/-- Observable effects of a handler: error-callback invocations and
outbound continue messages (id and seqno). -/
structure Effects where
  errors : List ClientError
  sent : List (String × Nat)
deriving Repr, DecidableEq

/-- No effects. -/
def emptyEff : Effects := ⟨[], []⟩

/-- Dictionary read. -/
def tableGet (t : List (String × PCall α)) (id : String) : Option (PCall α) :=
  match t with
  | [] => none
  | (k, v) :: rest => if k = id then some v else tableGet rest id

/-- Dictionary assignment: replace the binding in place when the key is
present, append otherwise. -/
def tableSet (t : List (String × PCall α)) (id : String) (c : PCall α) :
    List (String × PCall α) :=
  match t with
  | [] => [(id, c)]
  | (k, v) :: rest => if k = id then (k, c) :: rest else (k, v) :: tableSet rest id c

/-- Dictionary deletion of the binding of the key. -/
def tableDel (t : List (String × PCall α)) (id : String) : List (String × PCall α) :=
  match t with
  | [] => []
  | (k, v) :: rest => if k = id then rest else (k, v) :: tableDel rest id

/-- Installation of a new pending call (the assignment performed by
call_sync, call_async and the login helpers before sending). -/
def installCall (conn : Conn α) (c : PCall α) : Conn α :=
  { conn with pendingCalls := tableSet conn.pendingCalls c.id c }

/-- Embedding of Connection.on_rpc_response: a known id gets its result
stored, ready set, the optional callback invoked, and the entry deleted
under the key given by the call record itself; an unknown id notifies the
error callback, when installed, with SPURIOUS_RPC_RESPONSE. -/
def onRpcResponse (conn : Conn α) (id : String) (data : α) : Conn α × Effects :=
  match tableGet conn.pendingCalls id with
  | some call =>
      let call' := { call with result := some (CallResult.data data), ready := true }
      ({ conn with pendingCalls := tableDel (tableSet conn.pendingCalls id call') call.id },
       emptyEff)
  | none =>
      (conn,
       if conn.hasErrorCallback then { emptyEff with errors := [ClientError.SPURIOUS_RPC_RESPONSE] }
       else emptyEff)

/-- Truthiness of a result slot as tested by the fragment and end handlers
(if not call.result); tr is Python truthiness on payloads, and handles are
objects, hence always truthy. -/
def resultTruthy (tr : α → Bool) : Option (CallResult α) → Bool
  | none => false
  | some (CallResult.data d) => tr d
  | some (CallResult.handle _) => true

/-- Embedding of Connection.on_rpc_fragment. tr is Python truthiness on
payloads and elems is Python iteration (the queue receives the elements of
the payload one by one). A known id gets its streaming handle installed
when the result slot is falsy, the payload queued or cached according to
the view flag, seqno assigned, ready set, and, when the callback returns a
truthy value, an automatic continue for the next seqno is sent; an unknown
id is silently ignored. -/
def onRpcFragment (tr : α → Bool) (elems : α → List α) (conn : Conn α)
    (id : String) (seqno : Nat) (data : α) : Conn α × Effects :=
  match tableGet conn.pendingCalls id with
  | some call =>
      let call1 :=
        if resultTruthy tr call.result then call
        else { call with result := some (CallResult.handle call.view) }
      let call2 :=
        if call1.view then { call1 with cache := (seqno, data) :: call1.cache }
        else { call1 with queue := call1.queue ++ (elems data).map some }
      let call3 := { call2 with seqno := seqno, ready := true }
      let conn' := { conn with pendingCalls := tableSet conn.pendingCalls id call3 }
      let eff :=
        match call.callback with
        | some cb => if cb data then { emptyEff with sent := [(id, call3.seqno + 1)] } else emptyEff
        | none => emptyEff
      (conn', eff)
  | none => (conn, emptyEff)

/-- Embedding of Connection.on_rpc_end: a known id gets its streaming
handle installed when the result slot is falsy, seqno assigned to the
payload, a termination sentinel queued for non-view calls, the callback
invoked with None, and ready set; the entry stays in the table. An
unknown id is silently ignored. -/
def onRpcEnd (tr : α → Bool) (conn : Conn α) (id : String) (data : Nat) :
    Conn α × Effects :=
  match tableGet conn.pendingCalls id with
  | some call =>
      let call1 :=
        if resultTruthy tr call.result then call
        else { call with result := some (CallResult.handle call.view) }
      let call2 := { call1 with seqno := data }
      let call3 :=
        if call2.view then call2 else { call2 with queue := call2.queue ++ [none] }
      let call4 := { call3 with ready := true }
      ({ conn with pendingCalls := tableSet conn.pendingCalls id call4 }, emptyEff)
  | none => (conn, emptyEff)

/-- Embedding of Connection.on_rpc_close: a known id is marked closed and
its condition variable notified; the entry is not removed. An unknown id
is silently ignored. -/
def onRpcClose (conn : Conn α) (id : String) : Conn α × Effects :=
  match tableGet conn.pendingCalls id with
  | some call =>
      ({ conn with pendingCalls := tableSet conn.pendingCalls id { call with closed := true } },
       emptyEff)
  | none => (conn, emptyEff)

/-- Embedding of Connection.on_rpc_error: a known id gets its result
cleared, the error payload stored, ready set, the callback invoked with
the wrapped exception, and the entry deleted; afterwards the error
callback, when installed, is notified with RPC_CALL_ERROR regardless of
whether the id was known. -/
def onRpcError (conn : Conn α) (id : String) (data : α) : Conn α × Effects :=
  let conn' :=
    match tableGet conn.pendingCalls id with
    | some call =>
        let call' := { call with result := none, error := some data, ready := true }
        { conn with pendingCalls := tableDel (tableSet conn.pendingCalls id call') call.id }
    | none => conn
  (conn',
   if conn.hasErrorCallback then { emptyEff with errors := [ClientError.RPC_CALL_ERROR] }
   else emptyEff)

/-- The keys of the pending-call table. -/
def tableKeys (t : List (String × PCall α)) : List String := t.map Prod.fst

/-- Key consistency of the pending-call table: every binding maps a key to
a call whose id field is that key. The installers guarantee this by always
keying the table by the id of the call being installed. -/
def wfKeys (t : List (String × PCall α)) : Prop := ∀ p ∈ t, (p.2).id = p.1

/- Synchronous call timeout (client.py, Connection.wait_for_call and
   Connection.call_sync). -/

/-- The default_timeout field set by the Connection constructor. -/
def connDefaultTimeout : Nat := 60

/-- The errno constant raised on timeout (FreeBSD value). -/
def ETIMEDOUT : Nat := 60

/-- One ready.wait(1) probe at the given elapsed second: readyAt is the
second at which the terminal response sets the ready event (none when it
never arrives); the probe spanning seconds elapsed to elapsed plus one
observes it when it fires no later than its end. -/
def readyWait (readyAt : Option Nat) (elapsed : Nat) : Bool :=
  match readyAt with
  | some t => decide (t ≤ elapsed + 1)
  | none => false

/-- Embedding of Connection.wait_for_call with a numeric timeout: probe the
ready event in one-second steps, counting elapsed seconds, until the event
fires (true) or the deadline passes (false). A timeout of None would loop
until the event fires and is not modelled. -/
def waitForCall (readyAt : Option Nat) (timeout : Nat) (elapsed : Nat) : Bool :=
  if h : elapsed < timeout then
    if readyWait readyAt elapsed then true
    else waitForCall readyAt timeout (elapsed + 1)
  else false
termination_by timeout - elapsed
decreasing_by omega

/-- Exceptions raised by call_sync: a coded RpcException, or one wrapping a
peer error payload. -/
inductive RpcExc (α : Type) where
  | exc (code : Nat) (msg : String) : RpcExc α
  | excObj (e : α) : RpcExc α

/-- Embedding of the wait and failure logic of Connection.call_sync, after
the call has been installed and sent: the timeout argument defaults to the
connection default_timeout; on expiry the error callback (when installed)
gets RPC_CALL_TIMEOUT and an ETIMEDOUT exception is raised; otherwise a
peer error held by a call with no result is re-raised, and the result is
returned. readyAt, result and error describe the pending call as the
response correlation left it. -/
def callSync (hasErrorCallback : Bool) (defaultTimeout : Nat) (timeoutArg : Option Nat)
    (readyAt : Option Nat) (result : Option α) (error : Option α) :
    Except (RpcExc α) (Option α) × List ClientError :=
  let timeout := timeoutArg.getD defaultTimeout
  if waitForCall readyAt timeout 0 then
    match result, error with
    | none, some e => (Except.error (RpcExc.excObj e), [])
    | r, _ => (Except.ok r, [])
  else
    (Except.error (RpcExc.exc ETIMEDOUT "Call timed out"),
     if hasErrorCallback then [ClientError.RPC_CALL_TIMEOUT] else [])

/- Server-side event filtering (server.py, match_event and
   ServerConnection). -/

/-- An event mask: a wildcard string pattern, or a compiled regular
expression identified by an index into the regex environment. -/
inductive EventMask where
  | strMask (pat : String) : EventMask
  | regexMask (id : Nat) : EventMask
deriving Repr, DecidableEq

/-- Semantics of the two standard-library matchers used by match_event:
fnmatch.fnmatch on name and pattern, and match on a compiled regular
expression (true when the match is not None). -/
structure MatchEnv where
  fnmatchSem : String → String → Bool
  regexSem : Nat → String → Bool

/-- Embedding of match_event (server.py): strings go through fnmatch,
compiled patterns through their match method. -/
def matchEvent (env : MatchEnv) (name : String) : EventMask → Bool
  | EventMask.strMask pat => env.fnmatchSem name pat
  | EventMask.regexMask r => env.regexSem r name

/-- The wire payload of a subscribe or unsubscribe message: the handlers
ignore anything that is not a list. -/
inductive MaskPayload where
  | list (ms : List EventMask) : MaskPayload
  | other : MaskPayload

/-- Per-connection server state: the subscription mask set (a Python set,
modelled as a list compared by membership). -/
structure SrvConn where
  eventMasks : List EventMask

/-- Embedding of ServerConnection.on_events_subscribe: union the mask set
with the given masks; non-list payloads are ignored. -/
def onEventsSubscribe (c : SrvConn) : MaskPayload → SrvConn
  | MaskPayload.list ms => { c with eventMasks := c.eventMasks ∪ ms }
  | MaskPayload.other => c

/-- Embedding of ServerConnection.on_events_unsubscribe: set difference
(every mask listed in the payload leaves the set); non-list payloads are
ignored. -/
def onEventsUnsubscribe (c : SrvConn) : MaskPayload → SrvConn
  | MaskPayload.list ms =>
      { c with eventMasks := c.eventMasks.filter (fun m => !ms.contains m) }
  | MaskPayload.other => c

/-- Embedding of ServerConnection.emit_event: the outbound event is sent
exactly when some mask in the subscription set matches the name. -/
def srvEmitEvent (env : MatchEnv) (c : SrvConn) (name : String) : Bool :=
  c.eventMasks.any (matchEvent env name)

/- The login helpers (client.py, Connection.login_user, login_service,
   login_token). -/

/-- The peer reply to an auth-variant call, processed by the response
correlation while the caller blocks in wait_for_call: a response payload
(a list whose first element is the token) or an error payload. -/
inductive AuthReply (α : Type) where
  | response (vals : List α) : AuthReply α
  | errorReply (e : α) : AuthReply α

/-- The call fields the login helpers read. -/
structure AuthCallState (α : Type) where
  result : Option (List α)
  error : Option α

/-- The freshly installed auth call, before any reply is processed. -/
def authStart (α : Type) : AuthCallState α := ⟨none, none⟩

/-- Effect of the peer reply on the call record (on_rpc_response stores the
result, on_rpc_error stores the error payload). -/
def applyReply (c : AuthCallState α) : AuthReply α → AuthCallState α
  | AuthReply.response vals => { c with result := some vals }
  | AuthReply.errorReply e => { c with error := some e }

/-- Outcome of a login helper: a raised RpcException wrapping the peer
error, a raised subscript error on a missing token, or normal completion
with the token stored on the connection (when any). -/
inductive LoginOutcome (α : Type) where
  | raised (e : α) : LoginOutcome α
  | indexErr : LoginOutcome α
  | completed (token : Option α) : LoginOutcome α
deriving Repr

/-- Embedding of Connection.login_user: install the call, send the single
auth message, wait (the reply is processed during the wait), then raise
when the call holds an error, else store the first element of the result
as the token. Returns the outcome and the rpc message names sent. -/
def loginUser (reply : AuthReply α) : LoginOutcome α × List String :=
  let c0 := authStart α
  let c1 := applyReply c0 reply
  (match c1.error with
   | some e => LoginOutcome.raised e
   | none =>
       match c1.result with
       | some (t :: _) => LoginOutcome.completed (some t)
       | some [] => LoginOutcome.indexErr
       | none => LoginOutcome.indexErr,
   ["auth"])

/-- Embedding of Connection.login_token: identical to login_user except for
the message name. -/
def loginToken (reply : AuthReply α) : LoginOutcome α × List String :=
  let c0 := authStart α
  let c1 := applyReply c0 reply
  (match c1.error with
   | some e => LoginOutcome.raised e
   | none =>
       match c1.result with
       | some (t :: _) => LoginOutcome.completed (some t)
       | some [] => LoginOutcome.indexErr
       | none => LoginOutcome.indexErr,
   ["auth_token"])

/-- Embedding of Connection.login_service: install the call, send the
single auth_service message, then check the error field BEFORE waiting
(at which point no reply has been processed), then wait; the reply
processed during the wait is never examined and nothing is stored. -/
def loginService (reply : AuthReply α) : LoginOutcome α × List String :=
  let c0 := authStart α
  (match c0.error with
   | some e => LoginOutcome.raised e
   | none =>
       let _c1 := applyReply c0 reply
       LoginOutcome.completed none,
   ["auth_service"])

/- Helper lemmas about the pending-call table. -/

theorem tableKeys_cons (k : String) (v : PCall α) (t : List (String × PCall α)) :
    tableKeys ((k, v) :: t) = k :: tableKeys t := rfl

theorem tableGet_tableSet_self (t : List (String × PCall α)) (id : String) (c : PCall α) :
    tableGet (tableSet t id c) id = some c := by
  induction t with
  | nil => simp [tableSet, tableGet]
  | cons p rest ih =>
      obtain ⟨k, v⟩ := p
      by_cases hk : k = id
      · subst hk
        simp [tableSet, tableGet]
      · simp [tableSet, hk, tableGet, ih]

theorem mem_tableKeys_tableSet (t : List (String × PCall α)) (id x : String) (c : PCall α) :
    x ∈ tableKeys (tableSet t id c) ↔ x ∈ tableKeys t ∨ x = id := by
  induction t with
  | nil => simp [tableSet, tableKeys]
  | cons p rest ih =>
      obtain ⟨k, v⟩ := p
      by_cases hk : k = id
      · subst hk
        simp [tableSet, tableKeys_cons]
        tauto
      · rw [show tableSet ((k, v) :: rest) id c = (k, v) :: tableSet rest id c by
          simp [tableSet, hk]]
        rw [tableKeys_cons, tableKeys_cons]
        simp only [List.mem_cons, ih]
        tauto

theorem nodup_tableSet (t : List (String × PCall α)) (id : String) (c : PCall α)
    (h : (tableKeys t).Nodup) : (tableKeys (tableSet t id c)).Nodup := by
  induction t with
  | nil => simp [tableSet, tableKeys]
  | cons p rest ih =>
      obtain ⟨k, v⟩ := p
      rw [tableKeys_cons] at h
      have h1 := (List.nodup_cons.mp h).1
      have h2 := (List.nodup_cons.mp h).2
      by_cases hk : k = id
      · subst hk
        rw [show tableSet ((k, v) :: rest) k c = (k, c) :: rest by simp [tableSet]]
        rw [tableKeys_cons]
        exact List.nodup_cons.mpr ⟨h1, h2⟩
      · rw [show tableSet ((k, v) :: rest) id c = (k, v) :: tableSet rest id c by
          simp [tableSet, hk]]
        rw [tableKeys_cons]
        refine List.nodup_cons.mpr ⟨fun hx => ?_, ih h2⟩
        rcases (mem_tableKeys_tableSet rest id k c).mp hx with hmem | heq
        · exact h1 hmem
        · exact hk heq

theorem tableGet_eq_none_of_not_mem_tableKeys (t : List (String × PCall α)) (id : String)
    (h : id ∉ tableKeys t) : tableGet t id = none := by
  induction t with
  | nil => simp [tableGet]
  | cons p rest ih =>
      obtain ⟨k, v⟩ := p
      rw [tableKeys_cons] at h
      simp only [List.mem_cons] at h
      push_neg at h
      simp [tableGet, Ne.symm h.1, ih h.2]

theorem nodup_tableDel (t : List (String × PCall α)) (id : String)
    (h : (tableKeys t).Nodup) : (tableKeys (tableDel t id)).Nodup := by
  induction t with
  | nil => simp [tableDel, tableKeys]
  | cons p rest ih =>
      obtain ⟨k, v⟩ := p
      rw [tableKeys_cons] at h
      have h1 := (List.nodup_cons.mp h).1
      have h2 := (List.nodup_cons.mp h).2
      by_cases hk : k = id
      · subst hk
        simpa [tableDel] using h2
      · rw [show tableDel ((k, v) :: rest) id = (k, v) :: tableDel rest id by
          simp [tableDel, hk]]
        rw [tableKeys_cons]
        refine List.nodup_cons.mpr ⟨fun hx => ?_, ih h2⟩
        have : tableKeys (tableDel rest id) ⊆ tableKeys rest := by
          clear h h1 h2 ih hx
          induction rest with
          | nil => simp [tableDel]
          | cons q qs ihq =>
              obtain ⟨k2, v2⟩ := q
              by_cases hk2 : k2 = id
              · subst hk2
                simp [tableDel, tableKeys_cons]
              · rw [show tableDel ((k2, v2) :: qs) id = (k2, v2) :: tableDel qs id by
                  simp [tableDel, hk2]]
                rw [tableKeys_cons, tableKeys_cons]
                exact List.cons_subset_cons _ ihq
        exact h1 (this hx)

theorem tableGet_tableDel_self (t : List (String × PCall α)) (id : String)
    (h : (tableKeys t).Nodup) : tableGet (tableDel t id) id = none := by
  induction t with
  | nil => simp [tableDel, tableGet]
  | cons p rest ih =>
      obtain ⟨k, v⟩ := p
      rw [tableKeys_cons] at h
      have h1 := (List.nodup_cons.mp h).1
      have h2 := (List.nodup_cons.mp h).2
      by_cases hk : k = id
      · subst hk
        rw [show tableDel ((k, v) :: rest) k = rest by simp [tableDel]]
        exact tableGet_eq_none_of_not_mem_tableKeys rest k h1
      · rw [show tableDel ((k, v) :: rest) id = (k, v) :: tableDel rest id by
          simp [tableDel, hk]]
        simp [tableGet, hk, ih h2]

theorem mem_of_tableGet (t : List (String × PCall α)) (id : String) (c : PCall α)
    (h : tableGet t id = some c) : (id, c) ∈ t := by
  induction t with
  | nil => simp [tableGet] at h
  | cons p rest ih =>
      obtain ⟨k, v⟩ := p
      by_cases hk : k = id
      · subst hk
        simp [tableGet] at h
        subst h
        exact List.mem_cons_self _ _
      · simp [tableGet, hk] at h
        exact List.mem_cons_of_mem _ (ih h)

/- C1: correlation of inbound messages with unknown ids. -/

/-- C1 (counterexample): the claim says every inbound fragment whose id is
not in the pending-call table makes the connection invoke its error
callback with SPURIOUS_RPC_RESPONSE; on a connection with an installed
error callback and an empty table, processing a fragment for the unknown
id x invokes no error callback at all, so the claim fails. -/
theorem c1_counterexample :
    ClientError.SPURIOUS_RPC_RESPONSE ∉
      (onRpcFragment (fun _ => false) (fun _ => []) (⟨[], true⟩ : Conn Int) "x" 1 0).2.errors := by
  simp [onRpcFragment, tableGet, emptyEff]

/-- C1 (amended): an inbound message with an id absent from the
pending-call table is discarded and leaves the table unchanged for all
five kinds; but only a response invokes the error callback with
SPURIOUS_RPC_RESPONSE (when a callback is installed), fragment, end and
close are silently ignored, and an error message invokes the error
callback with RPC_CALL_ERROR instead. -/
theorem c1_unknown_id_amended {α : Type} (tr : α → Bool) (elems : α → List α)
    (conn : Conn α) (id : String) (d : α) (sq : Nat)
    (habs : tableGet conn.pendingCalls id = none) :
    (onRpcResponse conn id d).1 = conn
    ∧ (onRpcResponse conn id d).2.errors
        = (if conn.hasErrorCallback then [ClientError.SPURIOUS_RPC_RESPONSE] else [])
    ∧ onRpcFragment tr elems conn id sq d = (conn, emptyEff)
    ∧ onRpcEnd tr conn id sq = (conn, emptyEff)
    ∧ onRpcClose conn id = (conn, emptyEff)
    ∧ (onRpcError conn id d).1 = conn
    ∧ (onRpcError conn id d).2.errors
        = (if conn.hasErrorCallback then [ClientError.RPC_CALL_ERROR] else []) := by
  cases hc : conn.hasErrorCallback <;>
    simp [onRpcResponse, onRpcFragment, onRpcEnd, onRpcClose, onRpcError, habs, hc, emptyEff]

/-- C1 (witness): the amended statement at a concrete connection. -/
theorem c1_unknown_id_amended_witness :
    (onRpcResponse (⟨[], true⟩ : Conn Int) "x" 0).1 = (⟨[], true⟩ : Conn Int)
    ∧ (onRpcResponse (⟨[], true⟩ : Conn Int) "x" 0).2.errors
        = (if (true : Bool) then [ClientError.SPURIOUS_RPC_RESPONSE] else [])
    ∧ onRpcFragment (fun _ => false) (fun _ => []) (⟨[], true⟩ : Conn Int) "x" 1 0
        = ((⟨[], true⟩ : Conn Int), emptyEff)
    ∧ onRpcEnd (fun _ => false) (⟨[], true⟩ : Conn Int) "x" 1
        = ((⟨[], true⟩ : Conn Int), emptyEff)
    ∧ onRpcClose (⟨[], true⟩ : Conn Int) "x" = ((⟨[], true⟩ : Conn Int), emptyEff)
    ∧ (onRpcError (⟨[], true⟩ : Conn Int) "x" 0).1 = (⟨[], true⟩ : Conn Int)
    ∧ (onRpcError (⟨[], true⟩ : Conn Int) "x" 0).2.errors
        = (if (true : Bool) then [ClientError.RPC_CALL_ERROR] else []) :=
  c1_unknown_id_amended (fun _ => false) (fun _ => []) (⟨[], true⟩ : Conn Int) "x" 0 1 rfl

/- C2: uniqueness and terminal removal in the pending-call table. -/

/-- C2 (counterexample): the claim says that after a terminal close message
the id is absent from the pending-call table; on a connection holding the
pending call a, processing close for a leaves the entry present (marked
closed), so the claim fails. -/
theorem c2_counterexample :
    (tableGet (onRpcClose (⟨[("a", PCall.fresh (α := Int) "a" "m" none)], true⟩ : Conn Int)
        "a").1.pendingCalls "a").isSome = true := rfl

/-- C2 (amended): the table holds at most one pending call per id (key
uniqueness is preserved by installation and by every correlation handler);
after a terminal response or error for an id the id is absent; after a
close the entry remains, marked closed, until connection teardown. -/
theorem c2_pending_call_table_amended {α : Type} (tr : α → Bool) (elems : α → List α)
    (conn : Conn α) (c : PCall α) (id : String) (d : α) (sq : Nat) :
    ((tableKeys conn.pendingCalls).Nodup →
      (tableKeys (installCall conn c).pendingCalls).Nodup
      ∧ (tableKeys (onRpcResponse conn id d).1.pendingCalls).Nodup
      ∧ (tableKeys (onRpcFragment tr elems conn id sq d).1.pendingCalls).Nodup
      ∧ (tableKeys (onRpcEnd tr conn id sq).1.pendingCalls).Nodup
      ∧ (tableKeys (onRpcClose conn id).1.pendingCalls).Nodup
      ∧ (tableKeys (onRpcError conn id d).1.pendingCalls).Nodup)
    ∧ ((tableKeys conn.pendingCalls).Nodup → wfKeys conn.pendingCalls →
      tableGet (onRpcResponse conn id d).1.pendingCalls id = none
      ∧ tableGet (onRpcError conn id d).1.pendingCalls id = none)
    ∧ (∀ call, tableGet conn.pendingCalls id = some call →
      tableGet (onRpcClose conn id).1.pendingCalls id = some { call with closed := true }) := by
  refine ⟨fun hnd => ?_, fun hnd hwf => ?_, fun call hcall => ?_⟩
  · refine ⟨nodup_tableSet _ _ _ hnd, ?_, ?_, ?_, ?_, ?_⟩
    · unfold onRpcResponse
      cases hg : tableGet conn.pendingCalls id with
      | none => simpa using hnd
      | some call => simpa using nodup_tableDel _ _ (nodup_tableSet _ _ _ hnd)
    · unfold onRpcFragment
      cases hg : tableGet conn.pendingCalls id with
      | none => simpa using hnd
      | some call => simpa using nodup_tableSet _ _ _ hnd
    · unfold onRpcEnd
      cases hg : tableGet conn.pendingCalls id with
      | none => simpa using hnd
      | some call => simpa using nodup_tableSet _ _ _ hnd
    · unfold onRpcClose
      cases hg : tableGet conn.pendingCalls id with
      | none => simpa using hnd
      | some call => simpa using nodup_tableSet _ _ _ hnd
    · unfold onRpcError
      cases hg : tableGet conn.pendingCalls id with
      | none => simpa using hnd
      | some call => simpa using nodup_tableDel _ _ (nodup_tableSet _ _ _ hnd)
  · constructor
    · unfold onRpcResponse
      cases hg : tableGet conn.pendingCalls id with
      | none => simpa using hg
      | some call =>
          have hid : call.id = id := hwf (id, call) (mem_of_tableGet _ _ _ hg)
          simpa [hid] using
            tableGet_tableDel_self _ id (nodup_tableSet conn.pendingCalls id _ hnd)
    · unfold onRpcError
      cases hg : tableGet conn.pendingCalls id with
      | none => simpa using hg
      | some call =>
          have hid : call.id = id := hwf (id, call) (mem_of_tableGet _ _ _ hg)
          simpa [hid] using
            tableGet_tableDel_self _ id (nodup_tableSet conn.pendingCalls id _ hnd)
  · unfold onRpcClose
    rw [hcall]
    simpa using tableGet_tableSet_self conn.pendingCalls id _

/-- C2 (witness): the amended statement at a concrete one-entry table. -/
theorem c2_pending_call_table_amended_witness :
    tableGet (onRpcResponse
        (⟨[("a", PCall.fresh (α := Int) "a" "m" none)], true⟩ : Conn Int) "a" 0).1.pendingCalls
      "a" = none ∧
    tableGet (onRpcError
        (⟨[("a", PCall.fresh (α := Int) "a" "m" none)], true⟩ : Conn Int) "a" 0).1.pendingCalls
      "a" = none :=
  (c2_pending_call_table_amended (fun _ => false) (fun _ => [])
      (⟨[("a", PCall.fresh (α := Int) "a" "m" none)], true⟩ : Conn Int)
      (PCall.fresh "b" "m" none) "a" 0 1).2.1
    (by simp [tableKeys])
    (by
      intro p hp
      rcases List.mem_singleton.mp hp with rfl
      rfl)

/- C5: placeholder indexing in collect_fds. -/

/-- C5 (code divergence at the failing input): collecting the descriptors
of a two-element sequence whose first element is a nested sequence holding
descriptor 7 and whose second element is descriptor 8 yields the ancillary
list with 7 at position 0 and 8 at position 1, yet both placeholders carry
index 0: the enclosing traversal does not advance its running index past
descriptors yielded from the nested container, while the receive side
indexes the ancillary list by position. -/
theorem c5_collect_fds_misindex :
    collectFds (PVal.arr [PVal.arr [PVal.fdesc ⟨7, true⟩], PVal.fdesc ⟨8, true⟩]) 0
      = (PVal.arr [PVal.arr [fdPlaceholder 0], fdPlaceholder 0],
         [⟨7, true⟩, ⟨8, true⟩]) := rfl

/- C10: the login helpers and peer errors. -/

/-- C10 (code divergence at the failing input): a peer error reply to an
auth call is raised by login_user and login_token, but login_service
checks the error field before wait_for_call has processed the reply and
therefore completes normally, swallowing the error; each helper sends
exactly one auth-variant message. -/
theorem c10_login_service_swallows_error :
    loginService (AuthReply.errorReply (0 : Int))
      = (LoginOutcome.completed none, ["auth_service"])
    ∧ loginUser (AuthReply.errorReply (0 : Int)) = (LoginOutcome.raised 0, ["auth"])
    ∧ loginToken (AuthReply.errorReply (0 : Int)) = (LoginOutcome.raised 0, ["auth_token"])
    ∧ (loginService (AuthReply.errorReply (0 : Int))).2.length = 1
    ∧ (loginUser (AuthReply.response ([5] : List Int)))
      = (LoginOutcome.completed (some 5), ["auth"]) :=
  ⟨rfl, rfl, rfl, rfl, rfl⟩

/- C8: call_sync timeout behaviour. -/

theorem waitForCall_false (readyAt : Option Nat) (timeout : Nat)
    (h : ∀ t, readyAt = some t → timeout < t) (e : Nat) :
    waitForCall readyAt timeout e = false := by
  rw [waitForCall]
  split
  · next he =>
      have hw : readyWait readyAt e = false := by
        cases readyAt with
        | none => rfl
        | some t =>
            have := h t rfl
            simp [readyWait]
            omega
      rw [hw]
      simpa using waitForCall_false readyAt timeout h (e + 1)
  · rfl
termination_by timeout - e
decreasing_by omega

/-- C8: a call_sync that sees no terminal response within its timeout
(which defaults to the connection default of 60 seconds when no timeout
argument is given) notifies the error callback, when one is installed,
with RPC_CALL_TIMEOUT, and raises an RpcException with code ETIMEDOUT. -/
theorem c8_call_sync_timeout {α : Type} (hasCb : Bool) (timeoutArg : Option Nat)
    (readyAt : Option Nat) (result error : Option α)
    (hlate : ∀ t, readyAt = some t → timeoutArg.getD connDefaultTimeout < t) :
    callSync hasCb connDefaultTimeout timeoutArg readyAt result error
      = (Except.error (RpcExc.exc ETIMEDOUT "Call timed out"),
         if hasCb then [ClientError.RPC_CALL_TIMEOUT] else [])
    ∧ connDefaultTimeout = 60 := by
  refine ⟨?_, rfl⟩
  have hw := waitForCall_false readyAt (timeoutArg.getD connDefaultTimeout) hlate 0
  simp [callSync, hw]

/-- C8 (witness): a call whose response never arrives, with no timeout
argument, on a connection with an error callback. -/
theorem c8_call_sync_timeout_witness :
    callSync true connDefaultTimeout none none (none : Option Int) none
      = (Except.error (RpcExc.exc ETIMEDOUT "Call timed out"),
         if (true : Bool) then [ClientError.RPC_CALL_TIMEOUT] else [])
    ∧ connDefaultTimeout = 60 :=
  c8_call_sync_timeout true none none none none (fun t ht => nomatch ht)

/- C9: server-side event filtering and subscription bookkeeping. -/

/-- C9: a server connection sends an outbound event exactly when at least
one mask in its subscription set matches the name under match_event
(fnmatch for string masks, match for compiled regular expressions);
subscribing adds the given masks to the set and unsubscribing removes
them, with non-list payloads ignored. -/
theorem c9_event_filtering (env : MatchEnv) (c : SrvConn) (name : String)
    (ms : List EventMask) (m : EventMask) :
    (srvEmitEvent env c name = true ↔
      ∃ mm ∈ c.eventMasks, matchEvent env name mm = true)
    ∧ (m ∈ (onEventsSubscribe c (MaskPayload.list ms)).eventMasks ↔
        m ∈ c.eventMasks ∨ m ∈ ms)
    ∧ (m ∈ (onEventsUnsubscribe c (MaskPayload.list ms)).eventMasks ↔
        m ∈ c.eventMasks ∧ m ∉ ms)
    ∧ onEventsSubscribe c MaskPayload.other = c
    ∧ onEventsUnsubscribe c MaskPayload.other = c := by
  refine ⟨?_, ?_, ?_, rfl, rfl⟩
  · simp [srvEmitEvent, List.any_eq_true]
  · simp [onEventsSubscribe, List.mem_union_iff]
  · simp [onEventsUnsubscribe, List.mem_filter]

/- Helper lemmas about the pending iterator. -/

theorem cacheGet_cons_isSome {β : Type} (k : Nat) (v : β) (c : List (Nat × β)) (n : Nat)
    (h : (cacheGet c n).isSome) : (cacheGet ((k, v) :: c) n).isSome := by
  by_cases hk : k = n <;> simp [cacheGet, hk, h]

theorem stepState_seqno {α : Type} (st : PIter α) (v : α) (rest : List α) :
    (st.stepState v rest).seqno = st.seqno + 1 := rfl

theorem stepState_iter {α : Type} (st : PIter α) (v : α) (rest : List α) :
    (st.stepState v rest).iter = rest := rfl

theorem stepState_view {α : Type} (st : PIter α) (v : α) (rest : List α) :
    (st.stepState v rest).view = st.view := rfl

theorem stepState_cache_isSome {α : Type} (st : PIter α) (v : α) (rest : List α) (n : Nat)
    (h : (cacheGet st.cache n).isSome) :
    (cacheGet (st.stepState v rest).cache n).isSome := by
  unfold PIter.stepState
  by_cases hv : st.view
  · simp only [hv, if_true]
    exact cacheGet_cons_isSome _ _ _ _ h
  · simpa [hv] using h

theorem stepState_cache_next {α : Type} (st : PIter α) (v : α) (rest : List α)
    (hv : st.view = true) :
    cacheGet (st.stepState v rest).cache (st.seqno + 1) = some v := by
  simp [PIter.stepState, hv, cacheGet]

theorem chunkLoop_seqno_le {α : Type} (st : PIter α) (t : Nat) :
    st.seqno ≤ (st.chunkLoop t).2.seqno := by
  induction st, t using PIter.chunkLoop.induct with
  | case1 st t hlt hnil =>
      rw [PIter.chunkLoop]
      simp [hlt, hnil]
  | case2 st v rest hcons hlt =>
      rw [PIter.chunkLoop]
      simp [hlt, hcons, stepState_seqno]
  | case3 st t hlt v rest hcons hne ih =>
      rw [PIter.chunkLoop]
      simp only [hlt, hcons, dif_pos, hne, if_false]
      have := stepState_seqno st v rest
      omega
  | case4 st t hlt =>
      rw [PIter.chunkLoop]
      simp [hlt]

theorem chunkLoop_cache_isSome {α : Type} (st : PIter α) (t n : Nat)
    (h : (cacheGet st.cache n).isSome) :
    (cacheGet (st.chunkLoop t).2.cache n).isSome := by
  induction st, t using PIter.chunkLoop.induct with
  | case1 st t hlt hnil =>
      rw [PIter.chunkLoop]
      simpa [hlt, hnil] using h
  | case2 st v rest hcons hlt =>
      rw [PIter.chunkLoop]
      simp only [hlt, hcons, dif_pos, if_pos rfl]
      exact stepState_cache_isSome st v rest n h
  | case3 st t hlt v rest hcons hne ih =>
      rw [PIter.chunkLoop]
      simp only [hlt, hcons, dif_pos, hne, if_false]
      exact ih (stepState_cache_isSome st v rest n h)
  | case4 st t hlt =>
      rw [PIter.chunkLoop]
      simpa [hlt] using h

theorem chunkLoop_run {α : Type} (st : PIter α) (t : Nat)
    (hlt : st.seqno < t) (hlen : t - st.seqno ≤ st.iter.length) :
    (st.chunkLoop t).1 = Except.ok st.iter[t - st.seqno - 1]?
    ∧ (st.chunkLoop t).2.seqno = t := by
  induction st, t using PIter.chunkLoop.induct with
  | case1 st t hlt2 hnil =>
      rw [hnil] at hlen
      simp at hlen
      omega
  | case2 st v rest hcons hlt2 =>
      rw [PIter.chunkLoop]
      simp [hlt2, hcons, stepState_seqno]
  | case3 st t hlt2 v rest hcons hne ih =>
      rw [PIter.chunkLoop]
      simp only [hlt2, hcons, dif_pos, hne, if_false]
      have hstep := stepState_seqno st v rest
      have hlt' : (st.stepState v rest).seqno < t := by omega
      have hlen' : t - (st.stepState v rest).seqno ≤ (st.stepState v rest).iter.length := by
        rw [hcons] at hlen
        rw [stepState_iter, hstep]
        simp only [List.length_cons] at hlen
        omega
      have hres := ih hlt' hlen'
      refine ⟨?_, hres.2⟩
      rw [hres.1, stepState_iter, hstep]
      have hidx : t - st.seqno - 1 = (t - (st.seqno + 1) - 1) + 1 := by omega
      rw [hidx]
      simp
  | case4 st t hlt2 =>
      omega

theorem chunkLoop_view_replayable {α : Type} (st : PIter α) (t : Nat)
    (hv : st.view = true) (j : Nat) (hj1 : st.seqno < j)
    (hj2 : j ≤ (st.chunkLoop t).2.seqno) :
    (cacheGet (st.chunkLoop t).2.cache j).isSome := by
  induction st, t using PIter.chunkLoop.induct with
  | case1 st t hlt hnil =>
      rw [PIter.chunkLoop] at hj2 ⊢
      simp [hlt, hnil] at hj2 ⊢
      omega
  | case2 st v rest hcons hlt =>
      rw [PIter.chunkLoop] at hj2 ⊢
      simp [hcons, dif_pos hlt] at hj2 ⊢
      rw [stepState_seqno] at hj2
      have hjeq : j = st.seqno + 1 := by omega
      rw [hjeq]
      rw [stepState_cache_next st v rest hv]
      rfl
  | case3 st t hlt v rest hcons hne ih =>
      rw [PIter.chunkLoop] at hj2 ⊢
      simp only [hlt, hcons, dif_pos, hne, if_false] at hj2 ⊢
      have hv' : (st.stepState v rest).view = true := by rw [stepState_view]; exact hv
      by_cases hj : (st.stepState v rest).seqno < j
      · exact ih hv' hj hj2
      · rw [stepState_seqno] at hj
        have hjeq : j = st.seqno + 1 := by omega
        apply chunkLoop_cache_isSome
        rw [hjeq, stepState_cache_next st v rest hv]
        rfl
  | case4 st t hlt =>
      rw [PIter.chunkLoop] at hj2 ⊢
      simp [hlt] at hj2 ⊢
      omega

/- C4: request_chunk and the pending-iterator invariants. -/

/-- C4 (counterexample): the claim says request_chunk returns the k-th
source value for every pending iterator and every k; on the non-view
iterator left by a first request of chunk 1 over the source 10, 20, a
second request of chunk 1 returns nothing (the Python loop falls off the
end and returns None) instead of the first value 10. -/
theorem c4_counterexample :
    (((⟨[10, 20], 0, false, []⟩ : PIter Int).requestChunk 1).1 = Except.ok (some 10))
    ∧ ((((⟨[10, 20], 0, false, []⟩ : PIter Int).requestChunk 1).2.requestChunk 1).1
        = Except.ok none) := by
  have h1 : (⟨[10, 20], 0, false, []⟩ : PIter Int).requestChunk 1
      = (Except.ok (some 10), (⟨[20], 1, false, []⟩ : PIter Int)) := by
    unfold PIter.requestChunk
    rw [PIter.chunkLoop]
    simp [cacheGet, PIter.stepState]
  have h2 : (⟨[20], 1, false, []⟩ : PIter Int).requestChunk 1
      = (Except.ok none, (⟨[20], 1, false, []⟩ : PIter Int)) := by
    unfold PIter.requestChunk
    rw [PIter.chunkLoop]
    simp [cacheGet]
  rw [h1]
  exact ⟨rfl, by rw [h2]⟩

/-- C4 (amended): request_chunk k returns the k-th source value on an
iterator that has not yet reached k (in particular on a fresh iterator
with at least k source values); a cached seqno is replayed as stored; the
emission counter seqno never decreases; cache entries are never dropped;
and on view iterators every seqno up to the current one is replayable from
the cache. A non-view iterator asked again for an already-emitted seqno
returns nothing. -/
theorem c4_request_chunk_amended {α : Type} :
    (∀ (L : List α) (vw : Bool) (k : Nat), 1 ≤ k → k ≤ L.length →
      ((⟨L, 0, vw, []⟩ : PIter α).requestChunk k).1 = Except.ok L[k - 1]?)
    ∧ (∀ (st : PIter α) (t : Nat), st.seqno ≤ (st.requestChunk t).2.seqno)
    ∧ (∀ (st : PIter α) (t : Nat) (v : α), cacheGet st.cache t = some v →
        (st.requestChunk t).1 = Except.ok (some v))
    ∧ (∀ (st : PIter α) (t n : Nat), (cacheGet st.cache n).isSome →
        (cacheGet (st.requestChunk t).2.cache n).isSome)
    ∧ (∀ (L : List α) (k j : Nat), 1 ≤ k → k ≤ L.length → 1 ≤ j → j ≤ k →
        (cacheGet ((⟨L, 0, true, []⟩ : PIter α).requestChunk k).2.cache j).isSome) := by
  refine ⟨?_, ?_, ?_, ?_, ?_⟩
  · intro L vw k hk1 hk2
    unfold PIter.requestChunk
    simp only [cacheGet]
    have := (chunkLoop_run (⟨L, 0, vw, []⟩ : PIter α) k (by show 0 < k; omega)
      (by show k - 0 ≤ L.length; omega)).1
    simpa using this
  · intro st t
    unfold PIter.requestChunk
    cases hg : cacheGet st.cache t with
    | some v => simp
    | none => simpa using chunkLoop_seqno_le st t
  · intro st t v hv
    unfold PIter.requestChunk
    rw [hv]
  · intro st t n hn
    unfold PIter.requestChunk
    cases hg : cacheGet st.cache t with
    | some v => simpa using hn
    | none => simpa using chunkLoop_cache_isSome st t n hn
  · intro L k j hk1 hk2 hj1 hj2
    unfold PIter.requestChunk
    simp only [cacheGet]
    have hrun := chunkLoop_run (⟨L, 0, true, []⟩ : PIter α) k (by show 0 < k; omega)
      (by show k - 0 ≤ L.length; omega)
    exact chunkLoop_view_replayable (⟨L, 0, true, []⟩ : PIter α) k rfl j
      (by show 0 < j; omega) (by rw [hrun.2]; omega)

/-- C4 (witness): the amended statement at the fresh view iterator over
the two-element source 10, 20, requesting chunk 2. -/
theorem c4_request_chunk_amended_witness :
    ((⟨[10, 20], 0, true, []⟩ : PIter Int).requestChunk 2).1
      = Except.ok ([10, 20] : List Int)[2 - 1]? :=
  (c4_request_chunk_amended (α := Int)).1 [10, 20] true 2 (by omega) (by simp)

/- Helper lemmas for view-mode repeat lookups. -/

theorem cacheGet_cons_ne {β : Type} (k n : Nat) (v : β) (c : List (Nat × β))
    (h : k ≠ n) : cacheGet ((k, v) :: c) n = cacheGet c n := by
  simp [cacheGet, h]

theorem stepState_cache_ne {α : Type} (st : PIter α) (v : α) (rest : List α) (n : Nat)
    (h : n ≠ st.seqno + 1) :
    cacheGet (st.stepState v rest).cache n = cacheGet st.cache n := by
  unfold PIter.stepState
  by_cases hv : st.view
  · simp only [hv, if_true]
    exact cacheGet_cons_ne _ _ _ _ (Ne.symm h)
  · simp [hv]

theorem chunkLoop_view {α : Type} (st : PIter α) (t : Nat) :
    (st.chunkLoop t).2.view = st.view := by
  induction st, t using PIter.chunkLoop.induct with
  | case1 st t hlt hnil =>
      rw [PIter.chunkLoop]
      simp [hlt, hnil]
  | case2 st v rest hcons hlt =>
      rw [PIter.chunkLoop]
      simp [hcons, dif_pos hlt, stepState_view]
  | case3 st t hlt v rest hcons hne ih =>
      rw [PIter.chunkLoop]
      simp only [hcons, dif_pos hlt, hne, if_false]
      rw [ih, stepState_view]
  | case4 st t hlt =>
      rw [PIter.chunkLoop]
      simp [hlt]

theorem requestChunk_view {α : Type} (st : PIter α) (t : Nat) :
    (st.requestChunk t).2.view = st.view := by
  unfold PIter.requestChunk
  cases hg : cacheGet st.cache t with
  | some v => simp
  | none => simpa using chunkLoop_view st t

theorem chunkLoop_ok_some_cached {α : Type} (st : PIter α) (t : Nat) (v : α)
    (hv : st.view = true) (h : (st.chunkLoop t).1 = Except.ok (some v)) :
    cacheGet (st.chunkLoop t).2.cache t = some v := by
  induction st, t using PIter.chunkLoop.induct with
  | case1 st t hlt hnil =>
      rw [PIter.chunkLoop] at h
      simp [hlt, hnil] at h
  | case2 st v2 rest hcons hlt =>
      rw [PIter.chunkLoop] at h ⊢
      simp [hcons, dif_pos hlt] at h ⊢
      rw [← h]
      exact stepState_cache_next st v2 rest hv
  | case3 st t hlt v2 rest hcons hne ih =>
      rw [PIter.chunkLoop] at h ⊢
      simp only [hcons, dif_pos hlt, hne, if_false] at h ⊢
      exact ih (by rw [stepState_view]; exact hv) h
  | case4 st t hlt =>
      rw [PIter.chunkLoop] at h
      simp [hlt] at h

theorem chunkLoop_ok_none {α : Type} (st : PIter α) (t : Nat)
    (h : (st.chunkLoop t).1 = Except.ok none) :
    (st.chunkLoop t).2 = st ∧ ¬ st.seqno < t := by
  induction st, t using PIter.chunkLoop.induct with
  | case1 st t hlt hnil =>
      rw [PIter.chunkLoop] at h
      simp [hlt, hnil] at h
  | case2 st v rest hcons hlt =>
      rw [PIter.chunkLoop] at h
      simp [hcons, dif_pos hlt] at h
  | case3 st t hlt v rest hcons hne ih =>
      rw [PIter.chunkLoop] at h
      simp only [hcons, dif_pos hlt, hne, if_false] at h
      have := (ih h).2
      rw [stepState_seqno] at this
      omega
  | case4 st t hlt =>
      rw [PIter.chunkLoop]
      simp [hlt]

theorem chunkLoop_error_state {α : Type} (st : PIter α) (t : Nat) (e : Nat)
    (h : (st.chunkLoop t).1 = Except.error e) :
    (st.chunkLoop t).2.iter = [] ∧ (st.chunkLoop t).2.seqno < t
    ∧ e = (st.chunkLoop t).2.seqno + 1
    ∧ cacheGet (st.chunkLoop t).2.cache t = cacheGet st.cache t := by
  induction st, t using PIter.chunkLoop.induct with
  | case1 st t hlt hnil =>
      rw [PIter.chunkLoop] at h ⊢
      simp [hlt, hnil] at h ⊢
      omega
  | case2 st v rest hcons hlt =>
      rw [PIter.chunkLoop] at h
      simp [hcons, dif_pos hlt] at h
  | case3 st t hlt v rest hcons hne ih =>
      rw [PIter.chunkLoop] at h ⊢
      simp only [hcons, dif_pos hlt, hne, if_false] at h ⊢
      have hres := ih h
      refine ⟨hres.1, hres.2.1, hres.2.2.1, ?_⟩
      rw [hres.2.2.2]
      exact stepState_cache_ne st v rest t (fun hh => hne hh.symm)
  | case4 st t hlt =>
      rw [PIter.chunkLoop] at h
      simp [hlt] at h

theorem requestChunk_repeat {α : Type} (st : PIter α) (t : Nat) (hv : st.view = true) :
    ((st.requestChunk t).2.requestChunk t).1 = (st.requestChunk t).1 := by
  unfold PIter.requestChunk
  cases hg : cacheGet st.cache t with
  | some v => simp [hg]
  | none =>
      simp only []
      cases hr : (st.chunkLoop t).1 with
      | ok w =>
          cases w with
          | some v =>
              have hc := chunkLoop_ok_some_cached st t v hv hr
              simp [hc, hr]
          | none =>
              have hc := chunkLoop_ok_none st t hr
              rw [hc.1, hg]
              simp only []
              exact hr
      | error e =>
          have hc := chunkLoop_error_state st t e hr
          have hmiss : cacheGet (st.chunkLoop t).2.cache t = none := by
            rw [hc.2.2.2, hg]
          rw [hmiss]
          simp only []
          rw [PIter.chunkLoop, dif_pos hc.2.1,
            show (st.chunkLoop t).2.iter = [] from hc.1]
          simp only []
          rw [hc.2.2.1]

/- C3: repeated view-mode lookups. -/

/-- C3 (counterexample): the claim says a second successful lookup of the
same index sends no new continue message; on a fresh view call over the
one-element source 5, looking up index 0 succeeds (returning the payload
5), and looking up index 0 again returns the same value but sends a second
continue, because the lookup tests whether index 0 is a cached seqno while
fragments are cached from seqno 1 up. -/
theorem c3_counterexample :
    (viewGetItem (⟨[], 0, false, ⟨[5], 0, true, []⟩⟩ : ViewState Int) 0).1 = some (some 5)
    ∧ (viewGetItem (viewGetItem (⟨[], 0, false, ⟨[5], 0, true, []⟩⟩ : ViewState Int) 0).2.2
        0).1 = some (some 5)
    ∧ (viewGetItem (viewGetItem (⟨[], 0, false, ⟨[5], 0, true, []⟩⟩ : ViewState Int) 0).2.2
        0).2.1 = true := by
  have hr : (⟨[5], 0, true, []⟩ : PIter Int).requestChunk 1
      = (Except.ok (some 5), ⟨[], 1, true, [(1, 5)]⟩) := by
    unfold PIter.requestChunk
    rw [PIter.chunkLoop]
    simp [cacheGet, PIter.stepState]
  have hr2 : (⟨[], 1, true, [(1, 5)]⟩ : PIter Int).requestChunk 1
      = (Except.ok (some 5), ⟨[], 1, true, [(1, 5)]⟩) := by
    unfold PIter.requestChunk
    simp [cacheGet]
  have h1 : viewGetItem (⟨[], 0, false, ⟨[5], 0, true, []⟩⟩ : ViewState Int) 0
      = (some (some 5), true, ⟨[(1, some 5)], 1, false, ⟨[], 1, true, [(1, 5)]⟩⟩) := by
    simp [viewGetItem, cacheGet, hr]
  rw [h1]
  have h2 : viewGetItem (⟨[(1, some 5)], 1, false, ⟨[], 1, true, [(1, 5)]⟩⟩ : ViewState Int) 0
      = (some (some 5), true,
         ⟨[(1, some 5), (1, some 5)], 1, false, ⟨[], 1, true, [(1, 5)]⟩⟩) := by
    simp [viewGetItem, cacheGet, hr2]
  rw [h2]
  exact ⟨rfl, rfl, rfl⟩

/-- C3 (amended): when a view-mode lookup of index k returns a value, a
second lookup of the same k on the resulting state returns the same value;
the second lookup avoids a new continue round-trip exactly when k itself
is a cached seqno of the call (which never holds for k equal to 0, since
fragment seqnos start at 1). -/
theorem c3_repeat_lookup_amended {α : Type} (s : ViewState α) (k : Nat) (v : Option α)
    (hview : s.srv.view = true) (h1 : (viewGetItem s k).1 = some v) :
    (viewGetItem (viewGetItem s k).2.2 k).1 = some v
    ∧ (viewGetItem (viewGetItem s k).2.2 k).2.1
        = !(cacheGet ((viewGetItem s k).2.2).cliCache k).isSome := by
  by_cases hcl : s.closed
  · rw [viewGetItem] at h1
    simp [hcl] at h1
  · by_cases hhit : (cacheGet s.cliCache k).isSome
    · have hfst : viewGetItem s k = (cacheGet s.cliCache (k + 1), false, s) := by
        rw [viewGetItem]
        simp [hcl, hhit]
      rw [hfst] at h1 ⊢
      simp only []
      rw [viewGetItem]
      simp [hcl, hhit, h1]
    · have hmiss : (cacheGet s.cliCache k).isSome = false := by
        simpa using hhit
      cases hr : (s.srv.requestChunk (k + 1)).1 with
      | ok w =>
          have hfst : viewGetItem s k =
              (some w, true,
               ⟨(k + 1, w) :: s.cliCache, k + 1, s.closed, (s.srv.requestChunk (k + 1)).2⟩) := by
            rw [viewGetItem]
            simp only [hcl, if_false, hmiss, Bool.false_eq_true, if_neg, hr]
            simp [cacheGet]
          rw [hfst] at h1 ⊢
          simp only [] at h1
          have hveq : w = v := by
            simpa using h1
          subst hveq
          rw [viewGetItem]
          have hk1 : cacheGet ((k + 1, w) :: s.cliCache) k = cacheGet s.cliCache k :=
            cacheGet_cons_ne _ _ _ _ (by omega)
          simp only [hcl, if_false, hk1, hmiss, Bool.false_eq_true, if_neg]
          have hrep := requestChunk_repeat s.srv (k + 1) hview
          rw [hr] at hrep
          simp only [hrep]
          simp [cacheGet, hk1, hmiss]
      | error e =>
          have hfst : viewGetItem s k =
              (cacheGet s.cliCache (k + 1), true,
               ⟨s.cliCache, k + 1, s.closed, (s.srv.requestChunk (k + 1)).2⟩) := by
            rw [viewGetItem]
            simp only [hcl, if_false, hmiss, Bool.false_eq_true, if_neg, hr]
          rw [hfst] at h1 ⊢
          simp only [] at h1 ⊢
          rw [viewGetItem]
          simp only [hcl, if_false, hmiss, Bool.false_eq_true, if_neg]
          have hrep := requestChunk_repeat s.srv (k + 1) hview
          rw [hr] at hrep
          simp only [hrep]
          simp [cacheGet, hmiss, h1]

/-- C3 (witness): the amended statement at the state reached after the
first lookup of the counterexample run. -/
theorem c3_repeat_lookup_amended_witness :
    (viewGetItem (viewGetItem (⟨[], 0, false, ⟨[5], 0, true, []⟩⟩ : ViewState Int) 0).2.2 0).1
      = some (some 5)
    ∧ (viewGetItem (viewGetItem (⟨[], 0, false, ⟨[5], 0, true, []⟩⟩ : ViewState Int) 0).2.2
        0).2.1
      = !(cacheGet ((viewGetItem (⟨[], 0, false, ⟨[5], 0, true, []⟩⟩ : ViewState Int)
          0).2.2).cliCache 0).isSome :=
  c3_repeat_lookup_amended (⟨[], 0, false, ⟨[5], 0, true, []⟩⟩ : ViewState Int) 0 (some 5)
    rfl
    (by
      have hr : (⟨[5], 0, true, []⟩ : PIter Int).requestChunk 1
          = (Except.ok (some 5), ⟨[], 1, true, [(1, 5)]⟩) := by
        unfold PIter.requestChunk
        rw [PIter.chunkLoop]
        simp [cacheGet, PIter.stepState]
      simp [viewGetItem, cacheGet, hr])

/- Helper lemmas for the receive-side substitution. -/

theorem substFd_spec (fds : List Int) (i : Int) (h : -(fds.length : Int) ≤ i) :
    substFd fds (PVal.num i) = some (specFdValue fds i) := by
  unfold substFd specFdValue pyIndex
  by_cases h0 : 0 ≤ i
  · by_cases hlen : i < (fds.length : Int)
    · have hlt : i.toNat < fds.length := by omega
      cases hx : fds.get? i.toNat with
      | none =>
          rw [List.get?_eq_none] at hx
          omega
      | some x =>
          have hx2 := hx
          rw [List.get?_eq_getElem?, List.getElem?_eq_getElem hlt] at hx2
          simp [hlen, h0, not_lt.mpr h0, hx, Option.some.inj hx2]
    · simp [hlen, h0]
  · have hlen : i < (fds.length : Int) := by omega
    have hj : (0 : Int) ≤ (fds.length : Int) + i := by omega
    have hlt : ((fds.length : Int) + i).toNat < fds.length := by omega
    cases hx : fds.get? ((fds.length : Int) + i).toNat with
    | none =>
        rw [List.get?_eq_none] at hx
        omega
    | some x =>
        have hx2 := hx
        rw [List.get?_eq_getElem?, List.getElem?_eq_getElem hlt] at hx2
        simp [hlen, h0, show i < 0 by omega, hj, hx, Option.some.inj hx2]

mutual
theorem replaceFds_spec : ∀ (t : PVal) (fds : List Int),
    wellIndexed t fds = true → replaceFds t fds = some (specReplace t fds)
  | PVal.obj kvs, fds, h => by
      have hf := replaceFields_spec kvs fds (by simpa [wellIndexed] using h)
      simp [replaceFds, specReplace, hf]
  | PVal.arr xs, fds, h => by
      have hf := replaceElems_spec xs fds (by simpa [wellIndexed] using h)
      simp [replaceFds, specReplace, hf]
  | PVal.null, _, _ => by simp [replaceFds, specReplace]
  | PVal.bool _, _, _ => by simp [replaceFds, specReplace]
  | PVal.num _, _, _ => by simp [replaceFds, specReplace]
  | PVal.str _, _, _ => by simp [replaceFds, specReplace]
  | PVal.fdesc _, _, _ => by simp [replaceFds, specReplace]

theorem replaceFields_spec : ∀ (kvs : List (String × PVal)) (fds : List Int),
    wellIndexedFields kvs fds = true →
    replaceFields kvs fds = some (specReplaceFields kvs fds)
  | [], _, _ => by simp [replaceFields, specReplaceFields]
  | (k, PVal.obj [(key, x)]) :: rest, fds, h => by
      by_cases hkey : key = "$fd"
      · subst hkey
        cases x with
        | num i =>
            simp only [wellIndexedFields, if_true] at h
            simp only [Bool.and_eq_true, decide_eq_true_eq] at h
            have hs := substFd_spec fds i h.1
            have hr := replaceFields_spec rest fds h.2
            simp [replaceFields, specReplaceFields, hs, hr]
        | null => simp [wellIndexedFields] at h
        | bool b => simp [wellIndexedFields] at h
        | str s => simp [wellIndexedFields] at h
        | fdesc d => simp [wellIndexedFields] at h
        | arr xs2 => simp [wellIndexedFields] at h
        | obj kvs2 => simp [wellIndexedFields] at h
      · simp only [wellIndexedFields, if_neg hkey, Bool.and_eq_true] at h
        have hv := replaceFds_spec (PVal.obj [(key, x)]) fds h.1
        have hr := replaceFields_spec rest fds h.2
        simp [replaceFields, specReplaceFields, hkey, hv, hr]
  | (k, PVal.null) :: rest, fds, h => by
      simp only [wellIndexedFields, Bool.and_eq_true] at h
      have hr := replaceFields_spec rest fds h.2
      simp [replaceFields, specReplaceFields, replaceFds, specReplace, hr]
  | (k, PVal.bool b) :: rest, fds, h => by
      simp only [wellIndexedFields, Bool.and_eq_true] at h
      have hr := replaceFields_spec rest fds h.2
      simp [replaceFields, specReplaceFields, replaceFds, specReplace, hr]
  | (k, PVal.num n) :: rest, fds, h => by
      simp only [wellIndexedFields, Bool.and_eq_true] at h
      have hr := replaceFields_spec rest fds h.2
      simp [replaceFields, specReplaceFields, replaceFds, specReplace, hr]
  | (k, PVal.str s) :: rest, fds, h => by
      simp only [wellIndexedFields, Bool.and_eq_true] at h
      have hr := replaceFields_spec rest fds h.2
      simp [replaceFields, specReplaceFields, replaceFds, specReplace, hr]
  | (k, PVal.fdesc d) :: rest, fds, h => by
      simp only [wellIndexedFields, Bool.and_eq_true] at h
      have hr := replaceFields_spec rest fds h.2
      simp [replaceFields, specReplaceFields, replaceFds, specReplace, hr]
  | (k, PVal.arr xs) :: rest, fds, h => by
      simp only [wellIndexedFields, Bool.and_eq_true] at h
      have hv := replaceFds_spec (PVal.arr xs) fds h.1
      have hr := replaceFields_spec rest fds h.2
      simp [replaceFields, specReplaceFields, hv, hr]
  | (k, PVal.obj []) :: rest, fds, h => by
      simp only [wellIndexedFields, Bool.and_eq_true] at h
      have hv := replaceFds_spec (PVal.obj []) fds h.1
      have hr := replaceFields_spec rest fds h.2
      simp [replaceFields, specReplaceFields, hv, hr]
  | (k, PVal.obj (p1 :: p2 :: ps)) :: rest, fds, h => by
      simp only [wellIndexedFields, Bool.and_eq_true] at h
      have hv := replaceFds_spec (PVal.obj (p1 :: p2 :: ps)) fds h.1
      have hr := replaceFields_spec rest fds h.2
      simp [replaceFields, specReplaceFields, hv, hr]

theorem replaceElems_spec : ∀ (xs : List PVal) (fds : List Int),
    wellIndexedElems xs fds = true →
    replaceElems xs fds = some (specReplaceElems xs fds)
  | [], _, _ => by simp [replaceElems, specReplaceElems]
  | PVal.obj [(key, x)] :: rest, fds, h => by
      by_cases hkey : key = "$fd"
      · subst hkey
        cases x with
        | num i =>
            simp only [wellIndexedElems, if_true] at h
            simp only [Bool.and_eq_true, decide_eq_true_eq] at h
            have hs := substFd_spec fds i h.1
            have hr := replaceElems_spec rest fds h.2
            simp [replaceElems, specReplaceElems, hs, hr]
        | null => simp [wellIndexedElems] at h
        | bool b => simp [wellIndexedElems] at h
        | str s => simp [wellIndexedElems] at h
        | fdesc d => simp [wellIndexedElems] at h
        | arr xs2 => simp [wellIndexedElems] at h
        | obj kvs2 => simp [wellIndexedElems] at h
      · simp only [wellIndexedElems, if_neg hkey, Bool.and_eq_true] at h
        have hv := replaceFds_spec (PVal.obj [(key, x)]) fds h.1
        have hr := replaceElems_spec rest fds h.2
        simp [replaceElems, specReplaceElems, hkey, hv, hr]
  | PVal.null :: rest, fds, h => by
      simp only [wellIndexedElems, Bool.and_eq_true] at h
      have hr := replaceElems_spec rest fds h.2
      simp [replaceElems, specReplaceElems, replaceFds, specReplace, hr]
  | PVal.bool b :: rest, fds, h => by
      simp only [wellIndexedElems, Bool.and_eq_true] at h
      have hr := replaceElems_spec rest fds h.2
      simp [replaceElems, specReplaceElems, replaceFds, specReplace, hr]
  | PVal.num n :: rest, fds, h => by
      simp only [wellIndexedElems, Bool.and_eq_true] at h
      have hr := replaceElems_spec rest fds h.2
      simp [replaceElems, specReplaceElems, replaceFds, specReplace, hr]
  | PVal.str s :: rest, fds, h => by
      simp only [wellIndexedElems, Bool.and_eq_true] at h
      have hr := replaceElems_spec rest fds h.2
      simp [replaceElems, specReplaceElems, replaceFds, specReplace, hr]
  | PVal.fdesc d :: rest, fds, h => by
      simp only [wellIndexedElems, Bool.and_eq_true] at h
      have hr := replaceElems_spec rest fds h.2
      simp [replaceElems, specReplaceElems, replaceFds, specReplace, hr]
  | PVal.arr xs :: rest, fds, h => by
      simp only [wellIndexedElems, Bool.and_eq_true] at h
      have hv := replaceFds_spec (PVal.arr xs) fds h.1
      have hr := replaceElems_spec rest fds h.2
      simp [replaceElems, specReplaceElems, hv, hr]
  | PVal.obj [] :: rest, fds, h => by
      simp only [wellIndexedElems, Bool.and_eq_true] at h
      have hv := replaceFds_spec (PVal.obj []) fds h.1
      have hr := replaceElems_spec rest fds h.2
      simp [replaceElems, specReplaceElems, hv, hr]
  | PVal.obj (p1 :: p2 :: ps) :: rest, fds, h => by
      simp only [wellIndexedElems, Bool.and_eq_true] at h
      have hv := replaceFds_spec (PVal.obj (p1 :: p2 :: ps)) fds h.1
      have hr := replaceElems_spec rest fds h.2
      simp [replaceElems, specReplaceElems, hv, hr]
end

/- C6: receive-side placeholder substitution. -/

/-- C6 (counterexample): the claim says the substitution never fails the
whole message; on the decoded tree holding a placeholder with integer
payload minus two and a one-element ancillary list the guarded lookup
passes the Python comparison (minus two is below the length) and the
negative index reaches past the front of the list, raising IndexError and
failing the whole message. -/
theorem c6_counterexample :
    replaceFds (PVal.obj [("a", PVal.obj [("$fd", PVal.num (-2))])]) [7] = none := by
  simp [replaceFds, replaceFields, substFd, pyIndex]

/-- C6 (amended): on every decoded tree all of whose placeholder nodes
carry an integer payload at least the negated ancillary length, the
substitution succeeds and replaces every non-root placeholder node: with
a FileDescriptor wrapping ancillary index i when zero is at most i below
the length, with a null descriptor when i is at least the length, and
Python-style from the back for negative i; the root node itself is never
examined. Payloads below the negated length make the substitution fail. -/
theorem c6_replace_fds_amended (t : PVal) (fds : List Int)
    (h : wellIndexed t fds = true) :
    replaceFds t fds = some (specReplace t fds) :=
  replaceFds_spec t fds h

/-- C6 (witness): the amended statement on a two-placeholder message with
one in-range and one out-of-range (null-substituted) index. -/
theorem c6_replace_fds_amended_witness :
    replaceFds (PVal.obj [("a", PVal.obj [("$fd", PVal.num 0)]),
                          ("b", PVal.obj [("$fd", PVal.num 5)])]) [9]
      = some (specReplace (PVal.obj [("a", PVal.obj [("$fd", PVal.num 0)]),
                          ("b", PVal.obj [("$fd", PVal.num 5)])]) [9]) :=
  c6_replace_fds_amended
    (PVal.obj [("a", PVal.obj [("$fd", PVal.num 0)]),
               ("b", PVal.obj [("$fd", PVal.num 5)])]) [9] (by decide)

/- Helper lemmas for the JSON codec round trip. -/

theorem decDigit_digitChar : ∀ d, d < 10 → decDigit (Nat.digitChar d) = some d := by
  decide

theorem decParseDigits_map (l : List Nat) (h : ∀ d ∈ l, d < 10) :
    decParseDigits (l.map Nat.digitChar) = some l := by
  induction l with
  | nil => rfl
  | cons d rest ih =>
      have hd := h d (by simp)
      have hr := ih (fun x hx => h x (by simp [hx]))
      simp [decParseDigits, decDigit_digitChar d hd, hr]

theorem decParse_decPrint (n : Nat) : decParse (decPrint n) = some n := by
  unfold decParse decPrint
  rw [decParseDigits_map _ (fun d hd => Nat.digits_lt_base (by norm_num) hd)]
  simp [Nat.ofDigits_digits]

theorem dateParse_dateStr (t : Nat) : dateParse (dateStr t) = some t := by
  unfold dateParse dateStr
  exact decParse_decPrint t

theorem decChar_encChar : ∀ n, n < 64 → decChar (encChar n) = some n := by
  decide

theorem encChar_ne_pad : ∀ n, n < 64 → ¬ encChar n = '=' := by
  decide

theorem b64_roundtrip : ∀ (bs : List Nat), (∀ x ∈ bs, x < 256) →
    b64DecodeChunks (b64EncodeChunks bs) = some bs
  | [], _ => rfl
  | [a], h => by
      have ha : a < 256 := h a (by simp)
      simp only [b64EncodeChunks, b64DecodeChunks]
      rw [decChar_encChar (a / 4) (by omega), decChar_encChar (a % 4 * 16) (by omega)]
      simp only [Option.some_bind, eq_self_iff_true, and_self, if_true]
      have e1 : a / 4 * 4 + a % 4 * 16 / 16 = a := by omega
      rw [e1]
  | [a, b], h => by
      have ha : a < 256 := h a (by simp)
      have hb : b < 256 := h b (by simp)
      simp only [b64EncodeChunks, b64DecodeChunks]
      rw [decChar_encChar (a / 4) (by omega),
        decChar_encChar (a % 4 * 16 + b / 16) (by omega)]
      simp only [Option.some_bind]
      rw [if_neg (encChar_ne_pad (b % 16 * 4) (by omega)),
        decChar_encChar (b % 16 * 4) (by omega)]
      simp only [Option.some_bind, eq_self_iff_true, if_true]
      have e1 : a / 4 * 4 + (a % 4 * 16 + b / 16) / 16 = a := by omega
      have e2 : (a % 4 * 16 + b / 16) % 16 * 16 + b % 16 * 4 / 4 = b := by omega
      rw [e1, e2]
  | a :: b :: c :: d :: rest2, h => by
      have ha : a < 256 := h a (by simp)
      have hb : b < 256 := h b (by simp)
      have hc : c < 256 := h c (by simp)
      have htl : ∀ x ∈ d :: rest2, x < 256 := fun x hx => h x (by simp [hx])
      have hr := b64_roundtrip (d :: rest2) htl
      simp only [b64EncodeChunks, b64DecodeChunks]
      rw [decChar_encChar (a / 4) (by omega),
        decChar_encChar (a % 4 * 16 + b / 16) (by omega)]
      simp only [Option.some_bind]
      rw [if_neg (encChar_ne_pad (b % 16 * 4 + c / 64) (by omega)),
        decChar_encChar (b % 16 * 4 + c / 64) (by omega)]
      simp only [Option.some_bind]
      rw [if_neg (encChar_ne_pad (c % 64) (by omega)),
        decChar_encChar (c % 64) (by omega)]
      simp only [Option.some_bind]
      rw [hr]
      simp only [Option.map_some']
      have e1 : a / 4 * 4 + (a % 4 * 16 + b / 16) / 16 = a := by omega
      have e2 : (a % 4 * 16 + b / 16) % 16 * 16 + (b % 16 * 4 + c / 64) / 4 = b := by
        omega
      have e3 : (b % 16 * 4 + c / 64) % 4 * 64 + c % 64 = c := by omega
      rw [e1, e2, e3]
  | [a, b, c], h => by
      have ha : a < 256 := h a (by simp)
      have hb : b < 256 := h b (by simp)
      have hc : c < 256 := h c (by simp)
      simp only [b64EncodeChunks, b64DecodeChunks]
      rw [decChar_encChar (a / 4) (by omega),
        decChar_encChar (a % 4 * 16 + b / 16) (by omega)]
      simp only [Option.some_bind]
      rw [if_neg (encChar_ne_pad (b % 16 * 4 + c / 64) (by omega)),
        decChar_encChar (b % 16 * 4 + c / 64) (by omega)]
      simp only [Option.some_bind]
      rw [if_neg (encChar_ne_pad (c % 64) (by omega)),
        decChar_encChar (c % 64) (by omega)]
      simp only [Option.some_bind, b64DecodeChunks, Option.map_some']
      have e1 : a / 4 * 4 + (a % 4 * 16 + b / 16) / 16 = a := by omega
      have e2 : (a % 4 * 16 + b / 16) % 16 * 16 + (b % 16 * 4 + c / 64) / 4 = b := by
        omega
      have e3 : (b % 16 * 4 + c / 64) % 4 * 64 + c % 64 = c := by omega
      rw [e1, e2, e3]

theorem b64decode_b64encode (bs : List Nat) (h : ∀ x ∈ bs, x < 256) :
    b64decode (b64encode bs) = some bs := by
  unfold b64decode b64encode
  exact b64_roundtrip bs h

theorem decodeHook_not_ext : ∀ (kvs : List (String × Value)),
    (match kvs with
     | [(k, _)] => !extKey k
     | _ => true) = true →
    decodeHook kvs = some (Value.obj kvs)
  | [], _ => rfl
  | [(k, v)], hk => by
      simp only [Bool.not_eq_true'] at hk
      simp only [extKey, Bool.or_eq_false_iff, decide_eq_false_iff_not] at hk
      obtain ⟨⟨⟨h1, h2⟩, h3⟩, h4⟩ := hk
      simp [decodeHook, h1, h2, h3, h4]
  | p1 :: p2 :: ps, _ => rfl

mutual
theorem decode_encode : ∀ (v : Value), wfValue v = true → decode (encode v) = some v
  | Value.null, _ => rfl
  | Value.bool b, _ => rfl
  | Value.num n, _ => rfl
  | Value.str s, _ => rfl
  | Value.date t, _ => by
      simp [encode, decode, decodeFields, decodeHook, dateParse_dateStr]
  | Value.binary bs, h => by
      have hb : ∀ x ∈ bs, x < 256 := by
        simpa [wfValue, List.all_eq_true] using h
      simp [encode, decode, decodeFields, decodeHook, b64decode_b64encode bs hb]
  | Value.uuid u, h => by simp [wfValue] at h
  | Value.regex p, _ => by
      simp [encode, decode, decodeFields, decodeHook]
  | Value.password v, h => by
      have hv := decode_encode v (by simpa [wfValue] using h)
      simp [encode, decode, decodeFields, decodeHook, hv]
  | Value.arr xs, h => by
      have hx := decode_encode_list xs (by simpa [wfValue] using h)
      simp [encode, decode, hx]
  | Value.obj kvs, h => by
      simp only [wfValue, Bool.and_eq_true] at h
      have hx := decode_encode_fields kvs h.2
      have hhook := decodeHook_not_ext kvs h.1
      simp [encode, decode, hx, hhook]

theorem decode_encode_list : ∀ (xs : List Value), wfList xs = true →
    decodeList (encodeList xs) = some xs
  | [], _ => rfl
  | x :: rest, h => by
      simp only [wfList, Bool.and_eq_true] at h
      have hx := decode_encode x h.1
      have hr := decode_encode_list rest h.2
      simp [encodeList, decodeList, hx, hr]

theorem decode_encode_fields : ∀ (kvs : List (String × Value)), wfFields kvs = true →
    decodeFields (encodeFields kvs) = some kvs
  | [], _ => rfl
  | (k, v) :: rest, h => by
      simp only [wfFields, Bool.and_eq_true] at h
      have hv := decode_encode v h.1
      have hr := decode_encode_fields rest h.2
      simp [encodeFields, decodeFields, hv, hr]
end

/- C7: codec round trip. -/

/-- C7 (counterexample): the claim includes UUIDs among the round-tripping
kinds; a UUID encodes to its plain string form and the decoder has no hook
for it, so decoding returns a string, not the UUID. -/
theorem c7_counterexample :
    decode (encode (Value.uuid 0)) ≠ some (Value.uuid 0) := by
  simp [encode, decode]

/-- C7 (amended): decoding inverts encoding for every supported value not
containing a UUID, whose binary payloads are genuine bytes, and in which
no object literal is a one-entry dictionary keyed by an extension tag;
UUIDs encode to plain strings and decode as strings, and FileDescriptor
leaves are handled by the channel serializer, not by this codec. -/
theorem c7_roundtrip_amended (v : Value) (h : wfValue v = true) :
    decode (encode v) = some v :=
  decode_encode v h

/-- C7 (witness): the round trip on an object holding a binary blob, a
timestamp, a regular expression and a secret. -/
theorem c7_roundtrip_amended_witness :
    decode (encode (Value.obj [("x", Value.binary [0, 255]), ("d", Value.date 5),
        ("r", Value.regex "a.*"), ("p", Value.password (Value.str "s"))]))
      = some (Value.obj [("x", Value.binary [0, 255]), ("d", Value.date 5),
        ("r", Value.regex "a.*"), ("p", Value.password (Value.str "s"))]) :=
  c7_roundtrip_amended
    (Value.obj [("x", Value.binary [0, 255]), ("d", Value.date 5),
        ("r", Value.regex "a.*"), ("p", Value.password (Value.str "s"))])
    (by decide)

end Dispatcher
